import Mathlib

/-!
Verification development for the rosetta-thought repository.

Scripts are modelled as lists of byte values (`List Nat`, each element < 256 in
practice).  The definitions below are shallow embeddings of the Go source:

* `thought/txscript.go` and `thoughtd/txscript/standard.go` (script
  classification; the two files contain identical copies of the classifier),
* `thoughtd/txscript/sighash.go` (legacy signature hash),
* `thoughtd/chaincfg/params.go` (network parameters and the construction
  service test, whose pinned expectations are used for the construction model).

Helper code that the repository uses but whose source files are not part of
the provided tree (the script tokenizer, small-integer opcode helpers, the
wire serialization, double-SHA-256, Base58Check addresses, and the Rosetta
construction service) is modelled from the specification; each such
definition carries a doc comment beginning with `Modelled from the spec:`.
-/

namespace RosettaThought

/-! ## Opcode constants (canonical Bitcoin script opcode values, as used by
the source via the txscript opcode table; pinned by the hex test vectors in
`thoughtd/chaincfg/params.go`, e.g. `76a914…88ac` for
`OP_DUP OP_HASH160 OP_DATA_20 … OP_EQUALVERIFY OP_CHECKSIG`). -/

def OP_0 : Nat := 0x00
def OP_DATA_20 : Nat := 0x14
def OP_DATA_33 : Nat := 0x21
def OP_DATA_65 : Nat := 0x41
def OP_PUSHDATA1 : Nat := 0x4c
def OP_PUSHDATA2 : Nat := 0x4d
def OP_PUSHDATA4 : Nat := 0x4e
def OP_1 : Nat := 0x51
def OP_16 : Nat := 0x60
def OP_RETURN : Nat := 0x6a
def OP_DUP : Nat := 0x76
def OP_EQUAL : Nat := 0x87
def OP_EQUALVERIFY : Nat := 0x88
def OP_HASH160 : Nat := 0xa9
def OP_CODESEPARATOR : Nat := 0xab
def OP_CHECKSIG : Nat := 0xac
def OP_CHECKMULTISIG : Nat := 0xae

/-- `MaxDataCarrierSize` from `thought/txscript.go` line 16. -/
def MaxDataCarrierSize : Nat := 80

/-! ## Script tokenizer -/

/-- One parsed script instruction: its opcode, the data it pushes (empty for
non-push opcodes), and the raw bytes it occupies in the script. -/
structure Token where
  opcode : Nat
  data : List Nat
  raw : List Nat
deriving DecidableEq, Repr

/-- Modelled from the spec: the script tokenizer (`MakeScriptTokenizer` /
`ScriptTokenizer`, whose source file is not in the provided tree; §4.3 of the
spec describes scripts as opcode/data-push sequences).  Parses one
instruction: opcodes 0x01–0x4b push that many following bytes;
`OP_PUSHDATA1/2/4` read a 1-, 2- or 4-byte little-endian length and push that
many bytes; every other opcode (including `OP_0`) is a single byte pushing no
data.  Returns `none` when the script is too short for the instruction. -/
def nextToken (op : Nat) (rest : List Nat) : Option (Token × List Nat) :=
  if 1 ≤ op ∧ op ≤ 75 then
    if op ≤ rest.length then
      some (⟨op, rest.take op, op :: rest.take op⟩, rest.drop op)
    else none
  else if op = OP_PUSHDATA1 then
    match rest with
    | [] => none
    | n :: r2 =>
      if n ≤ r2.length then
        some (⟨op, r2.take n, op :: n :: r2.take n⟩, r2.drop n)
      else none
  else if op = OP_PUSHDATA2 then
    match rest with
    | a :: b :: r2 =>
      if a + 256 * b ≤ r2.length then
        some (⟨op, r2.take (a + 256 * b), op :: a :: b :: r2.take (a + 256 * b)⟩,
          r2.drop (a + 256 * b))
      else none
    | _ => none
  else if op = OP_PUSHDATA4 then
    match rest with
    | a :: b :: c :: d :: r2 =>
      if a + 256 * b + 65536 * c + 16777216 * d ≤ r2.length then
        some (⟨op, r2.take (a + 256 * b + 65536 * c + 16777216 * d),
          op :: a :: b :: c :: d :: r2.take (a + 256 * b + 65536 * c + 16777216 * d)⟩,
          r2.drop (a + 256 * b + 65536 * c + 16777216 * d))
      else none
    | _ => none
  else
    some (⟨op, [], [op]⟩, rest)

/-- Fuelled full tokenization of a script: `some` list of tokens when every
instruction parses, `none` on a malformed script.  The fuel only serves
termination; `tokenize` below supplies enough of it. -/
def tokenizeF : Nat → List Nat → Option (List Token)
  | _, [] => some []
  | 0, _ :: _ => none
  | fuel + 1, op :: rest =>
    match nextToken op rest with
    | none => none
    | some (t, r) => (tokenizeF fuel r).map (t :: ·)

/-- Full tokenization of a script (each instruction consumes at least one
byte, so the script length bounds the number of instructions). -/
def tokenize (s : List Nat) : Option (List Token) := tokenizeF s.length s

/-! ## Small-integer opcode helpers and pubkey encoding -/

/-- Modelled from the spec: `isSmallInt` (helper whose source file is not in
the provided tree; §4.3 calls `m`, `n` "small ints").  A small-integer opcode
is `OP_0` or one of `OP_1` through `OP_16`. -/
def isSmallInt (op : Nat) : Prop := op = OP_0 ∨ (OP_1 ≤ op ∧ op ≤ OP_16)

instance (op : Nat) : Decidable (isSmallInt op) := by
  unfold isSmallInt; infer_instance

/-- Modelled from the spec: `asSmallInt` — the integer value 0–16 pushed by a
small-integer opcode. -/
def asSmallInt (op : Nat) : Nat := if op = OP_0 then 0 else op - (OP_1 - 1)

/-- `isStrictPubKeyEncoding` from `thought/txscript.go` lines 71–88: a
33-byte key starting 0x02/0x03, or a 65-byte key starting 0x04/0x06/0x07. -/
def isStrictPubKeyEncoding (pubKey : List Nat) : Bool :=
  if pubKey.length = 33 ∧ (pubKey.getD 0 0 = 0x02 ∨ pubKey.getD 0 0 = 0x03) then
    true
  else if pubKey.length = 65 ∧ (pubKey.getD 0 0 = 0x04 ∨ pubKey.getD 0 0 = 0x06 ∨
      pubKey.getD 0 0 = 0x07) then
    true
  else false

/-! ## Script classification (`thought/txscript.go`, duplicated in
`thoughtd/txscript/standard.go`) -/

/-- `extractPubKeyHash` from `thought/txscript.go` lines 119–133: the 20-byte
hash of a 25-byte pay-to-pubkey-hash script, `none` otherwise. -/
def extractPubKeyHash (script : List Nat) : Option (List Nat) :=
  if script.length = 25 ∧ script.getD 0 0 = OP_DUP ∧ script.getD 1 0 = OP_HASH160 ∧
      script.getD 2 0 = OP_DATA_20 ∧ script.getD 23 0 = OP_EQUALVERIFY ∧
      script.getD 24 0 = OP_CHECKSIG then
    some ((script.drop 3).take 20)
  else none

/-- `isPubKeyHashScript` from `thought/txscript.go` lines 137–139. -/
def isPubKeyHashScript (script : List Nat) : Bool := (extractPubKeyHash script).isSome

/-- `extractScriptHash` from `thought/txscript.go` lines 147–159: the 20-byte
hash of a 23-byte pay-to-script-hash script, `none` otherwise. -/
def extractScriptHash (script : List Nat) : Option (List Nat) :=
  if script.length = 23 ∧ script.getD 0 0 = OP_HASH160 ∧ script.getD 1 0 = OP_DATA_20 ∧
      script.getD 22 0 = OP_EQUAL then
    some ((script.drop 2).take 20)
  else none

/-- `isScriptHashScript` from `thought/txscript.go` lines 163–165. -/
def isScriptHashScript (script : List Nat) : Bool := (extractScriptHash script).isSome

/-- `extractCompressedPubKey` from `thought/txscript.go` lines 170–184. -/
def extractCompressedPubKey (script : List Nat) : Option (List Nat) :=
  if script.length = 35 ∧ script.getD 34 0 = OP_CHECKSIG ∧ script.getD 0 0 = OP_DATA_33 ∧
      (script.getD 1 0 = 0x02 ∨ script.getD 1 0 = 0x03) then
    some ((script.drop 1).take 33)
  else none

/-- `extractUncompressedPubKey` from `thought/txscript.go` lines 189–205. -/
def extractUncompressedPubKey (script : List Nat) : Option (List Nat) :=
  if script.length = 67 ∧ script.getD 66 0 = OP_CHECKSIG ∧ script.getD 0 0 = OP_DATA_65 ∧
      (script.getD 1 0 = 0x04 ∨ script.getD 1 0 = 0x06 ∨ script.getD 1 0 = 0x07) then
    some ((script.drop 1).take 65)
  else none

/-- `extractPubKey` from `thought/txscript.go` lines 211–216. -/
def extractPubKey (script : List Nat) : Option (List Nat) :=
  match extractCompressedPubKey script with
  | some pk => some pk
  | none => extractUncompressedPubKey script

/-- `isPubKeyScript` from `thought/txscript.go` lines 394–396. -/
def isPubKeyScript (script : List Nat) : Bool := (extractPubKey script).isSome

/-- `multiSigDetails` from `thought/txscript.go` lines 219–224. -/
structure MultiSigDetails where
  requiredSigs : Nat
  numPubKeys : Nat
  pubKeys : List (List Nat)
  valid : Bool
deriving DecidableEq, Repr

/-- The pubkey-counting loop of `extractMultisigScriptDetails`
(`thought/txscript.go` lines 264–280): scan tokens until a small-integer
opcode is found, counting every token in between as a public-key slot and
collecting the ones with a strict pubkey encoding.  Mirrors the Go
`for tokenizer.Next() { if isSmallInt … break; … }` loop followed by the
`tokenizer.Done()` check: the result is `none` when the script ends or fails
to parse before a small integer is found, or when the small integer is the
final token; otherwise it is the count, the collected keys, the small-integer
opcode, and the unparsed remainder of the script.  (The Go code collects keys
only when its `extractPubKeys` flag is set; here they are always collected
and the caller discards them when the flag is false.)  The fuel argument only
serves termination. -/
def msLoopF : Nat → List Nat → Nat → List (List Nat) → Option (Nat × List (List Nat) × Nat × List Nat)
  | _, [], _, _ => none
  | 0, _ :: _, _, _ => none
  | fuel + 1, op :: rest, k, pks =>
    match nextToken op rest with
    | none => none
    | some (t, r) =>
      if isSmallInt t.opcode then
        if r.isEmpty then none else some (k, pks, t.opcode, r)
      else
        msLoopF fuel r (k + 1) (if isStrictPubKeyEncoding t.data then pks ++ [t.data] else pks)

/-- `extractMultisigScriptDetails` from `thought/txscript.go` lines 238–301:
`NUM_SIGS PUBKEY … NUM_PUBKEYS OP_CHECKMULTISIG` with `NUM_SIGS` and
`NUM_PUBKEYS` small-integer opcodes, `NUM_PUBKEYS` equal to the number of
tokens between the two small integers, and exactly one byte (the
`OP_CHECKMULTISIG` checked up front) after `NUM_PUBKEYS`. -/
def extractMultisigScriptDetails (script : List Nat) (extractPubKeys : Bool) : MultiSigDetails :=
  if script.length < 3 ∨ script.getLast? ≠ some OP_CHECKMULTISIG then ⟨0, 0, [], false⟩
  else
    match script with
    | [] => ⟨0, 0, [], false⟩
    | op :: rest =>
      match nextToken op rest with
      | none => ⟨0, 0, [], false⟩
      | some (t0, r0) =>
        if ¬ isSmallInt t0.opcode then ⟨0, 0, [], false⟩
        else
          match msLoopF r0.length r0 0 [] with
          | none => ⟨0, 0, [], false⟩
          | some (numPubKeys, pks, nOp, remAfter) =>
            if asSmallInt nOp ≠ numPubKeys then ⟨0, 0, [], false⟩
            else if remAfter.length ≠ 1 then ⟨0, 0, [], false⟩
            else ⟨asSmallInt t0.opcode, numPubKeys, if extractPubKeys then pks else [], true⟩

/-- `isMultisigScript` from `thought/txscript.go` lines 308–313. -/
def isMultisigScript (script : List Nat) : Bool :=
  (extractMultisigScriptDetails script false).valid

/-- `isNullDataScript` from `thought/txscript.go` lines 365–388: a single
`OP_RETURN`, or `OP_RETURN` followed by one token that is a small integer or
a push opcode (≤ `OP_PUSHDATA4`) whose data is at most `MaxDataCarrierSize`
bytes, with nothing after it. -/
def isNullDataScript (script : List Nat) : Bool :=
  match script with
  | [] => false
  | op0 :: rest =>
    if op0 ≠ OP_RETURN then false
    else
      match rest with
      | [] => true
      | op :: rest2 =>
        match nextToken op rest2 with
        | none => false
        | some (t, r) =>
          decide (r = [] ∧ (isSmallInt t.opcode ∨ t.opcode ≤ OP_PUSHDATA4) ∧
            t.data.length ≤ MaxDataCarrierSize)

/-! The script classes (`ScriptClass` is a byte in the source; the
enumeration values are from `thought/txscript.go` lines 20–27). -/

def NonStandardTy : Nat := 0
def PubKeyTy : Nat := 1
def PubKeyHashTy : Nat := 2
def ScriptHashTy : Nat := 3
def MultiSigTy : Nat := 4
def NullDataTy : Nat := 5

/-- `typeOfScript` from `thought/txscript.go` lines 400–414. -/
def typeOfScript (script : List Nat) : Nat :=
  if isPubKeyScript script then PubKeyTy
  else if isPubKeyHashScript script then PubKeyHashTy
  else if isScriptHashScript script then ScriptHashTy
  else if isMultisigScript script then MultiSigTy
  else if isNullDataScript script then NullDataTy
  else NonStandardTy

/-- `GetScriptClass` from `thought/txscript.go` lines 418–420. -/
def GetScriptClass (script : List Nat) : Nat := typeOfScript script

/-- `scriptClassToName` from `thought/txscript.go` lines 31–38. -/
def scriptClassToName : List String :=
  ["nonstandard", "pubkey", "pubkeyhash", "scripthash", "multisig", "nulldata"]

/-- `ScriptClass.String` from `thought/txscript.go` lines 43–48 (an identical
copy is in `thoughtd/txscript/standard.go` lines 74–79).  The Go code reads

  if int(t) > len(scriptClassToName) || int(t) < 0 \x7b return "Invalid" \x7d
  return scriptClassToName[t]

`t` is a byte, so `int(t) < 0` is always false.  When the guard passes, Go
indexes the 6-element name slice; the out-of-range index panics, which this
embedding represents by `none`. -/
def scriptClassString (t : Nat) : Option String :=
  if t > scriptClassToName.length then some "Invalid"
  else scriptClassToName.get? t

/-! ## SHA-256 (FIPS 180-4)

Modelled from the spec: the hash primitive behind `chainhash.DoubleHashB`
and the Base58Check checksum ("double-SHA-256"), whose source files are not
in the provided tree.  Words are `Nat` values kept below 2^32; bitwise
operations are implemented by structural recursion over 32 bit positions so
that every definition evaluates inside the kernel. -/

/-- Bitwise exclusive-or of the low `k` bits. -/
def bitXorAux : Nat → Nat → Nat → Nat
  | 0, _, _ => 0
  | k + 1, a, b => (a + b) % 2 + 2 * bitXorAux k (a / 2) (b / 2)

def xor32 (a b : Nat) : Nat := bitXorAux 32 a b

/-- Bitwise conjunction of the low `k` bits. -/
def bitAndAux : Nat → Nat → Nat → Nat
  | 0, _, _ => 0
  | k + 1, a, b => (a % 2) * (b % 2) + 2 * bitAndAux k (a / 2) (b / 2)

def and32 (a b : Nat) : Nat := bitAndAux 32 a b

/-- Bitwise complement on 32 bits (the argument must be < 2^32). -/
def not32 (a : Nat) : Nat := 4294967295 - a % 4294967296

/-- Right-rotation of a 32-bit word. -/
def rotr32 (n x : Nat) : Nat := x / 2 ^ n + x % 2 ^ n * 2 ^ (32 - n)

def shaCh (e f g : Nat) : Nat := xor32 (and32 e f) (and32 (not32 e) g)

def shaMaj (a b c : Nat) : Nat := xor32 (and32 a b) (xor32 (and32 a c) (and32 b c))

def shaBigSigma0 (a : Nat) : Nat := xor32 (rotr32 2 a) (xor32 (rotr32 13 a) (rotr32 22 a))

def shaBigSigma1 (e : Nat) : Nat := xor32 (rotr32 6 e) (xor32 (rotr32 11 e) (rotr32 25 e))

def shaSmallSigma0 (x : Nat) : Nat := xor32 (rotr32 7 x) (xor32 (rotr32 18 x) (x / 2 ^ 3))

def shaSmallSigma1 (x : Nat) : Nat := xor32 (rotr32 17 x) (xor32 (rotr32 19 x) (x / 2 ^ 10))

/-- The 64 SHA-256 round constants. -/
def shaK : List Nat :=
  [1116352408, 1899447441, 3049323471, 3921009573, 961987163,
   1508970993, 2453635748, 2870763221, 3624381080, 310598401,
   607225278, 1426881987, 1925078388, 2162078206, 2614888103,
   3248222580, 3835390401, 4022224774, 264347078, 604807628,
   770255983, 1249150122, 1555081692, 1996064986, 2554220882,
   2821834349, 2952996808, 3210313671, 3336571891, 3584528711,
   113926993, 338241895, 666307205, 773529912, 1294757372,
   1396182291, 1695183700, 1986661051, 2177026350, 2456956037,
   2730485921, 2820302411, 3259730800, 3345764771, 3516065817,
   3600352804, 4094571909, 275423344, 430227734, 506948616,
   659060556, 883997877, 958139571, 1322822218, 1537002063,
   1747873779, 1955562222, 2024104815, 2227730452, 2361852424,
   2428436474, 2756734187, 3204031479, 3329325298]

/-- The SHA-256 initial state. -/
def shaH0 : List Nat :=
  [1779033703, 3144134277, 1013904242, 2773480762,
   1359893119, 2600822924, 528734635, 1541459225]

/-- Big-endian serialization of a 64-bit length. -/
def be64 (n : Nat) : List Nat :=
  [n / 2 ^ 56 % 256, n / 2 ^ 48 % 256, n / 2 ^ 40 % 256, n / 2 ^ 32 % 256,
   n / 2 ^ 24 % 256, n / 2 ^ 16 % 256, n / 2 ^ 8 % 256, n % 256]

/-- SHA-256 padding: a 0x80 byte, zeros to 56 mod 64, and the bit length. -/
def shaPad (msg : List Nat) : List Nat :=
  msg ++ 128 :: List.replicate ((64 - (msg.length + 9) % 64) % 64) 0 ++ be64 (8 * msg.length)

/-- Big-endian 4-byte groups to 32-bit words. -/
def bytesToWords : List Nat → List Nat
  | a :: b :: c :: d :: r => (((a * 256 + b) * 256 + c) * 256 + d) :: bytesToWords r
  | _ => []

/-- Extend a 16-word block to the 64-word message schedule. -/
def extendW : Nat → List Nat → List Nat
  | 0, w => w
  | k + 1, w =>
    extendW k (w ++ [(shaSmallSigma1 (w.getD (w.length - 2) 0) + w.getD (w.length - 7) 0 +
      shaSmallSigma0 (w.getD (w.length - 15) 0) + w.getD (w.length - 16) 0) % 4294967296])

/-- One SHA-256 round on the 8-word working state. -/
def shaRound (st : List Nat) (kw : Nat × Nat) : List Nat :=
  match st with
  | [a, b, c, d, e, f, g, h] =>
    let t1 := (h + shaBigSigma1 e + shaCh e f g + kw.1 + kw.2) % 4294967296
    let t2 := (shaBigSigma0 a + shaMaj a b c) % 4294967296
    [(t1 + t2) % 4294967296, a, b, c, (d + t1) % 4294967296, e, f, g]
  | _ => st

/-- Compress one 16-word block into the hash state. -/
def shaCompress (st : List Nat) (block : List Nat) : List Nat :=
  let w := extendW 48 block
  let st2 := (shaK.zip w).foldl shaRound st
  (st.zip st2).map (fun p => (p.1 + p.2) % 4294967296)

/-- Fold the padded message, 64 bytes at a time, through the compressor. -/
def shaBlocks : Nat → List Nat → List Nat → List Nat
  | 0, _, st => st
  | k + 1, bytes, st => shaBlocks k (bytes.drop 64) (shaCompress st (bytesToWords (bytes.take 64)))

/-- SHA-256 of a byte list. -/
def sha256 (msg : List Nat) : List Nat :=
  let padded := shaPad msg
  let st := shaBlocks (padded.length / 64) padded shaH0
  st.foldr (fun w acc =>
    w / 2 ^ 24 % 256 :: w / 2 ^ 16 % 256 :: w / 2 ^ 8 % 256 :: w % 256 :: acc) []

/-- Modelled from the spec: `chainhash.DoubleHashB` — double SHA-256 (§4.4
step 6, §4.3 "double-SHA-256 4-byte checksum"). -/
def doubleSHA256 (b : List Nat) : List Nat := sha256 (sha256 b)

/-! ## Base58Check addresses

Modelled from the spec (§4.3): "Addresses are derived from hashes using
network-specific version bytes … Encoding is Base58Check (double-SHA-256
4-byte checksum)."  The address codec (`util.NewAddressPubKeyHash` /
`Address.EncodeAddress`) is not in the provided tree. -/

def base58Chars : List Char :=
  "123456789ABCDEFGHJKLMNPQRSTUVWXYZabcdefghijkmnopqrstuvwxyz".toList

/-- Base-58 digits of `n`, least significant first; `fuel` bounds the digit
count (two digits per input byte always suffice since 58² > 256). -/
def natToB58Rev : Nat → Nat → List Nat
  | 0, _ => []
  | fuel + 1, n => if n = 0 then [] else n % 58 :: natToB58Rev fuel (n / 58)

/-- A byte list read as a big-endian number. -/
def bytesToNat (l : List Nat) : Nat := l.foldl (fun acc b => acc * 256 + b) 0

/-- Base58 encoding of a byte payload: leading zero bytes become '1's and the
remaining value is written in base 58, most significant digit first. -/
def base58Encode (payload : List Nat) : String :=
  ⟨List.replicate (payload.takeWhile (· = 0)).length '1' ++
    ((natToB58Rev (2 * payload.length) (bytesToNat payload)).reverse.map
      (fun d => base58Chars.getD d '?'))⟩

/-- Base58Check: append the first four bytes of the double-SHA-256 of the
payload, then Base58-encode. -/
def base58CheckEncode (payload : List Nat) : String :=
  base58Encode (payload ++ (doubleSHA256 payload).take 4)

/-- P2PKH address derivation: Base58Check of the version byte followed by the
20-byte pubkey hash. -/
def addressFromPubKeyHash (version : Nat) (hash : List Nat) : String :=
  base58CheckEncode (version :: hash)

/-- The base-58 value of one address character. -/
def b58DigitOf (c : Char) : Option Nat := base58Chars.findIdx? (· = c)

/-- The digit values of an address string, most significant first. -/
def b58Digits (cs : List Char) : Option (List Nat) :=
  cs.foldr (fun c acc =>
    match b58DigitOf c, acc with
    | some d, some ds => some (d :: ds)
    | _, _ => none) (some [])

/-- The number encoded by a Base58 string. -/
def base58Decode (s : String) : Option Nat :=
  (b58Digits s.toList).map (List.foldl (fun a d => a * 58 + d) 0)

/-- Big-endian bytes of `n`, left-padded with zeros to exactly `k` bytes. -/
def natToBytesBE : Nat → Nat → List Nat
  | 0, _ => []
  | k + 1, n => natToBytesBE k (n / 256) ++ [n % 256]

/-- Base58Check decoding of a 25-byte P2PKH address: recover the 25 bytes,
check the version byte and the 4-byte double-SHA-256 checksum, and return
the 20-byte pubkey hash. -/
def addressToPubKeyHash (version : Nat) (s : String) : Option (List Nat) :=
  match base58Decode s with
  | none => none
  | some n =>
    if n < 256 ^ 25 then
      let bytes := natToBytesBE 25 n
      if bytes.getD 0 0 = version ∧ (doubleSHA256 (bytes.take 21)).take 4 = bytes.drop 21 then
        some ((bytes.drop 1).take 20)
      else none
    else none

/-! ## Network parameters (`thoughtd/chaincfg/params.go`) -/

/-- `Params` from `thoughtd/chaincfg/params.go` lines 44–66 (the fields the
claims use). -/
structure Params where
  name : String
  defaultPort : String
  pubKeyHashAddrID : Nat
  scriptHashAddrID : Nat
  privateKeyID : Nat
deriving DecidableEq, Repr

/-- `MainNetParams` from `thoughtd/chaincfg/params.go` lines 69–86. -/
def MainNetParams : Params :=
  { name := "main", defaultPort := "10618",
    pubKeyHashAddrID := 0x07, scriptHashAddrID := 0x09, privateKeyID := 0x7b }

/-- `TestNet3Params` from `thoughtd/chaincfg/params.go` lines 92–109. -/
def TestNet3Params : Params :=
  { name := "test", defaultPort := "11618",
    pubKeyHashAddrID := 0x6d, scriptHashAddrID := 0xc1, privateKeyID := 0xeb }

/-! ## Wire transaction model (`wire.MsgTx`) and legacy serialization -/

/-- `wire.TxIn`: previous outpoint, signature script, sequence. -/
structure TxIn where
  prevHash : List Nat
  prevIndex : Nat
  signatureScript : List Nat
  sequence : Nat
deriving DecidableEq, Repr

instance : Inhabited TxIn := ⟨⟨[], 0, [], 0⟩⟩

/-- `wire.TxOut`: value (int64 in Go; −1 appears in the sighash masking) and
public key script. -/
structure TxOut where
  value : Int
  pkScript : List Nat
deriving DecidableEq, Repr

instance : Inhabited TxOut := ⟨⟨0, []⟩⟩

/-- `wire.MsgTx` (the fields the legacy serialization uses). -/
structure MsgTx where
  version : Int
  txIn : List TxIn
  txOut : List TxOut
  lockTime : Nat
deriving DecidableEq, Repr

/-- Little-endian 4-byte serialization of a 32-bit value. -/
def le32 (n : Nat) : List Nat :=
  [n % 256, n / 256 % 256, n / 65536 % 256, n / 16777216 % 256]

/-- Little-endian 8-byte serialization of a 64-bit value. -/
def le64 (n : Nat) : List Nat :=
  [n % 256, n / 2 ^ 8 % 256, n / 2 ^ 16 % 256, n / 2 ^ 24 % 256,
   n / 2 ^ 32 % 256, n / 2 ^ 40 % 256, n / 2 ^ 48 % 256, n / 2 ^ 56 % 256]

/-- A Go int64 reinterpreted as its unsigned 64-bit representation. -/
def int64Bits (v : Int) : Nat := (v % (2 : Int) ^ 64).toNat

/-- A Go int32 reinterpreted as its unsigned 32-bit representation. -/
def int32Bits (v : Int) : Nat := (v % (2 : Int) ^ 32).toNat

/-- Bitcoin variable-length integer. -/
def varint (n : Nat) : List Nat :=
  if n < 0xfd then [n]
  else if n < 0x10000 then 0xfd :: [n % 256, n / 256 % 256]
  else if n < 4294967296 then 0xfe :: le32 n
  else 0xff :: le64 n

/-- Modelled from the spec: serialization of one input in the canonical
network form (§4.4 step 6; `wire.TxIn` encoding: 32-byte previous hash,
4-byte little-endian output index, length-prefixed signature script, 4-byte
little-endian sequence). -/
def serializeTxIn (ti : TxIn) : List Nat :=
  ti.prevHash ++ le32 ti.prevIndex ++ varint ti.signatureScript.length ++
    ti.signatureScript ++ le32 ti.sequence

/-- Modelled from the spec: serialization of one output (8-byte little-endian
value, length-prefixed script). -/
def serializeTxOut (to_ : TxOut) : List Nat :=
  le64 (int64Bits to_.value) ++ varint to_.pkScript.length ++ to_.pkScript

/-- Modelled from the spec: `MsgTx.SerializeNoWitness` — the legacy (witness
free) transaction serialization: version, inputs, outputs, lock time (§4.4
step 6 "Serialize (no witness)"). -/
def serializeNoWitness (tx : MsgTx) : List Nat :=
  le32 (int32Bits tx.version) ++ varint tx.txIn.length ++
    (tx.txIn.map serializeTxIn).flatten ++ varint tx.txOut.length ++
    (tx.txOut.map serializeTxOut).flatten ++ le32 tx.lockTime

/-! ## Legacy signature hash (`thoughtd/txscript/sighash.go`) -/

/-- `SigHashType` constants from `thoughtd/txscript/sighash.go` lines 21–31. -/
def SigHashAll : Nat := 0x1
def SigHashNone : Nat := 0x2
def SigHashSingle : Nat := 0x3
def SigHashAnyOneCanPay : Nat := 0x80
def sigHashMask : Nat := 0x1f

/-- Map a function over a list together with the position of each element. -/
def mapWithIdx (f : Nat → α → β) : Nat → List α → List β
  | _, [] => []
  | i, x :: xs => f i x :: mapWithIdx f (i + 1) xs

/-- Greedy scan used by `removeOpcodeRaw`: does any parsed token of the
script carry the given opcode?  Scanning stops at a malformed instruction,
exactly as the Go `for tokenizer.Next()` loop does. -/
def containsOpcodeF : Nat → List Nat → Nat → Bool
  | _, [], _ => false
  | 0, _ :: _, _ => false
  | fuel + 1, op :: rest, opc =>
    match nextToken op rest with
    | none => false
    | some (t, r) => if t.opcode = opc then true else containsOpcodeF fuel r opc

/-- The byte rewrite of `removeOpcodeRaw` once an occurrence is known to
exist: keep the raw bytes of every token whose opcode differs, drop matching
tokens, and drop any unparsable tail. -/
def removeOpcodeRawAuxF : Nat → List Nat → Nat → List Nat
  | _, [], _ => []
  | 0, _ :: _, _ => []
  | fuel + 1, op :: rest, opc =>
    match nextToken op rest with
    | none => []
    | some (t, r) =>
      (if t.opcode = opc then [] else t.raw) ++ removeOpcodeRawAuxF fuel r opc

/-- Modelled from the spec: `removeOpcodeRaw` (§4.4 step 2 "Strip
`OP_CODESEPARATOR` from `script_code`"; the Go helper's file is not in the
provided tree).  The Go function returns the script unchanged when no parsed
token carries the opcode, and otherwise rebuilds the script from the raw
bytes of the non-matching tokens. -/
def removeOpcodeRaw (script : List Nat) (opc : Nat) : List Nat :=
  if containsOpcodeF script.length script opc then
    removeOpcodeRawAuxF script.length script opc
  else script

/-- The canonicalized transaction view hashed by `calcSignatureHash`
(`thoughtd/txscript/sighash.go` lines 117–163): the shallow copy whose input
scripts are cleared except at `idx` (lines 117–124), with the
`SigHashNone` / `SigHashSingle` mask semantics applied (lines 126–160) and
the inputs truncated to `idx` alone under `SigHashAnyOneCanPay`
(lines 161–163).  `hashType % 32` is `hashType & sigHashMask` and
`hashType / 128 % 2 = 1` is `hashType & SigHashAnyOneCanPay ≠ 0`. -/
def sighashView (sigScript : List Nat) (hashType : Nat) (tx : MsgTx) (idx : Nat) : MsgTx :=
  let ins := mapWithIdx (fun i ti =>
    if i = idx then { ti with signatureScript := sigScript }
    else { ti with signatureScript := [] }) 0 tx.txIn
  let masked : MsgTx :=
    if hashType % 32 = SigHashNone then
      { tx with
        txOut := [],
        txIn := mapWithIdx (fun i ti =>
          if i ≠ idx then { ti with sequence := 0 } else ti) 0 ins }
    else if hashType % 32 = SigHashSingle then
      { tx with
        txOut := mapWithIdx (fun i o =>
          if i < idx then { o with value := -1, pkScript := [] } else o) 0
          (tx.txOut.take (idx + 1)),
        txIn := mapWithIdx (fun i ti =>
          if i ≠ idx then { ti with sequence := 0 } else ti) 0 ins }
    else { tx with txIn := ins }
  if hashType / 128 % 2 = 1 then
    { masked with txIn := (masked.txIn.drop idx).take 1 }
  else masked

/-- `calcSignatureHash` from `thoughtd/txscript/sighash.go` lines 85–172:
the out-of-range `SigHashSingle` early return (lines 106–110) produces the
32-byte value 0x01,0x00,…,0x00; otherwise `OP_CODESEPARATOR` is stripped
from the script, the canonicalized view is built, and the double SHA-256 of
its legacy serialization followed by the 4-byte little-endian hash type is
returned. -/
def calcSignatureHash (sigScript : List Nat) (hashType : Nat) (tx : MsgTx) (idx : Nat) :
    List Nat :=
  if hashType % 32 = SigHashSingle ∧ tx.txOut.length ≤ idx then
    1 :: List.replicate 31 0
  else
    doubleSHA256 (serializeNoWitness
      (sighashView (removeOpcodeRaw sigScript OP_CODESEPARATOR) hashType tx idx) ++
      le32 hashType)

/-- `checkScriptParses` (modelled from the spec: `CalcSignatureHash` rejects
scripts that fail to parse; the helper's file is not in the provided tree). -/
def checkScriptParses (script : List Nat) : Bool := (tokenize script).isSome

/-- `CalcSignatureHash` from `thoughtd/txscript/sighash.go` lines 75–81. -/
def CalcSignatureHash (script : List Nat) (hashType : Nat) (tx : MsgTx) (idx : Nat) :
    Option (List Nat) :=
  if checkScriptParses script then some (calcSignatureHash script hashType tx idx)
  else none

/-! ## Heap model of `calcSignatureHash`

`wire.MsgTx` holds `[]*TxIn` and `[]*TxOut` — slices of pointers into a
heap.  To state that `calcSignatureHash` never mutates the caller's
transaction (it writes only through the cells freshly allocated by
`shallowCopyTx`, `thoughtd/txscript/sighash.go` lines 44–66), the input and
output records live in an explicit heap and a transaction holds cell
addresses; every Go assignment `txCopy.TxIn[i].… = …` becomes a store at the
corresponding address. -/

/-- The heap of `TxIn` and `TxOut` cells; addresses are list indices. -/
structure Heap where
  ins : List TxIn
  outs : List TxOut
deriving Repr

/-- A transaction referring to its inputs and outputs by heap address. -/
structure MsgTxRef where
  version : Int
  txIn : List Nat
  txOut : List Nat
  lockTime : Nat
deriving Repr

def readIn (h : Heap) (a : Nat) : TxIn := h.ins.getD a default

def readOut (h : Heap) (a : Nat) : TxOut := h.outs.getD a default

def writeIn (h : Heap) (a : Nat) (f : TxIn → TxIn) : Heap :=
  { h with ins := h.ins.set a (f (h.ins.getD a default)) }

def writeOut (h : Heap) (a : Nat) (f : TxOut → TxOut) : Heap :=
  { h with outs := h.outs.set a (f (h.outs.getD a default)) }

/-- Dereference a transaction: the value the serializer reads. -/
def derefTx (h : Heap) (tx : MsgTxRef) : MsgTx :=
  { version := tx.version, lockTime := tx.lockTime,
    txIn := tx.txIn.map (readIn h), txOut := tx.txOut.map (readOut h) }

/-- `shallowCopyTx` from `thoughtd/txscript/sighash.go` lines 44–66 in the
heap model: allocate fresh cells holding copies of the referenced input and
output records and return a transaction pointing at the fresh cells. -/
def shallowCopyTxST (tx : MsgTxRef) (h : Heap) : MsgTxRef × Heap :=
  (({ version := tx.version, lockTime := tx.lockTime,
      txIn := (List.range tx.txIn.length).map (· + h.ins.length),
      txOut := (List.range tx.txOut.length).map (· + h.outs.length) } : MsgTxRef),
   ({ ins := h.ins ++ tx.txIn.map (readIn h),
      outs := h.outs ++ tx.txOut.map (readOut h) } : Heap))

/-- The script-clearing loop of `calcSignatureHash`
(`thoughtd/txscript/sighash.go` lines 118–124) as heap writes through the
copy's input addresses: input `idx` receives the stripped script, every
other input an empty script. -/
def scriptClearWrites (s : List Nat) (idx : Nat) (txCopy : MsgTxRef) (h : Heap) : Heap :=
  (mapWithIdx (fun i a => (i, a)) 0 txCopy.txIn).foldl
    (fun hh p => writeIn hh p.2 (fun c =>
      if p.1 = idx then { c with signatureScript := s }
      else { c with signatureScript := [] })) h

/-- The sequence-zeroing loop shared by the `SigHashNone` and
`SigHashSingle` cases (lines 129–133 and 146–150): zero the sequence of
every copied input other than `idx`. -/
def seqZeroWrites (idx : Nat) (txCopy : MsgTxRef) (h : Heap) : Heap :=
  (mapWithIdx (fun i a => (i, a)) 0 txCopy.txIn).foldl
    (fun hh p => if p.1 ≠ idx then writeIn hh p.2 (fun c => { c with sequence := 0 })
      else hh) h

/-- The `SigHashSingle` output-blanking loop (lines 140–143): every copied
output before `idx` gets value −1 and an empty script. -/
def singleOutWrites (idx : Nat) (txCopy : MsgTxRef) (h : Heap) : Heap :=
  (txCopy.txOut.take idx).foldl
    (fun hh a => writeOut hh a (fun c => { c with value := -1, pkScript := [] })) h

/-- The heap after the mask `switch` (lines 126–160). -/
def maskHeap (hashType idx : Nat) (txCopy : MsgTxRef) (h : Heap) : Heap :=
  if hashType % 32 = SigHashNone then seqZeroWrites idx txCopy h
  else if hashType % 32 = SigHashSingle then seqZeroWrites idx txCopy (singleOutWrites idx txCopy h)
  else h

/-- The copy's address lists after the mask `switch` and the
`SigHashAnyOneCanPay` truncation (lines 126–163); the writes above do not
move cells, so only the local slices change. -/
def maskRef (hashType idx : Nat) (txCopy : MsgTxRef) : MsgTxRef :=
  let masked :=
    if hashType % 32 = SigHashNone then { txCopy with txOut := [] }
    else if hashType % 32 = SigHashSingle then { txCopy with txOut := txCopy.txOut.take (idx + 1) }
    else txCopy
  if hashType / 128 % 2 = 1 then { masked with txIn := (masked.txIn.drop idx).take 1 }
  else masked

/-- `calcSignatureHash` in the heap model, write for write: the early return
(lines 106–110) touches nothing; otherwise the shallow copy allocates fresh
cells, the script-clearing loop and the mask cases store through the copy's
addresses only, and the result is hashed from the final heap. -/
def calcSignatureHashST (sigScript : List Nat) (hashType : Nat) (tx : MsgTxRef) (idx : Nat)
    (h : Heap) : List Nat × Heap :=
  if hashType % 32 = SigHashSingle ∧ tx.txOut.length ≤ idx then
    (1 :: List.replicate 31 0, h)
  else
    let s := removeOpcodeRaw sigScript OP_CODESEPARATOR
    let copyAlloc := shallowCopyTxST tx h
    let h2 := scriptClearWrites s idx copyAlloc.1 copyAlloc.2
    let h3 := maskHeap hashType idx copyAlloc.1 h2
    (doubleSHA256 (serializeNoWitness (derefTx h3 (maskRef hashType idx copyAlloc.1)) ++
      le32 hashType), h3)

/-! ## Construction core model (§4.5)

The Rosetta construction service source is not in the provided tree; only
its test (`TestConstructionService`, embedded in
`thoughtd/chaincfg/params.go` lines 280–601) is.  The phases the claims
need are modelled from the spec with that test's pinned expectations as the
authority where the two disagree. -/

/-- Rosetta operation type: inputs are negative spends, outputs positive. -/
inductive OpType where
  | input
  | output
deriving DecidableEq, Repr

/-- A Rosetta operation as the construction core consumes it: type, account
address, amount in notions, and (for inputs) the spent coin `(txid, vout)`.
Operation identifiers are not modelled (claims compare operations modulo
them). -/
structure Operation where
  typ : OpType
  account : String
  amount : Int
  coin : Option (List Nat × Nat)
deriving DecidableEq, Repr

def isInputOp (o : Operation) : Bool :=
  match o.typ with
  | OpType.input => true
  | OpType.output => false

def isOutputOp (o : Operation) : Bool :=
  match o.typ with
  | OpType.input => false
  | OpType.output => true

/-- Modelled from the spec: the Preprocess size estimator.  The spec's §4.5
formula "10 + 148·#inputs + 34·#outputs" contradicts the repository's own
test, which pins `EstimatedSize: 114` for one input and one output
(`thoughtd/chaincfg/params.go` line 374); this model therefore uses the
upstream rosetta-bitcoin constants the test value comes from — 12 bytes of
transaction overhead, 68 bytes per input, 9 + 25 bytes per P2PKH output —
which reproduce the pinned 114. -/
def estimateSize (ops : List Operation) : Nat :=
  ops.foldl (fun acc o =>
    match o.typ with
    | OpType.input => acc + 68
    | OpType.output => acc + 9 + 25) 12

/-- The spec's §4.5 Preprocess size formula, stated verbatim for comparison:
"Size estimate = 10 + 148·#inputs + 34·#outputs bytes." -/
def specEstimatedSize (inputs outputs : Nat) : Nat := 10 + 148 * inputs + 34 * outputs

/-- Modelled from the spec: the Metadata fee rule "fee = max(est_size ·
effective_rate, est_size · min_rate)" (§4.5), with rates in notions per
kilobyte and the fee multiplier as the fraction `multNum / multDen`
(`SuggestedFeeMultiplier` 0.75 in the test).  The minimum rate is the chain
constant `thought.MinFeeRate`; the test pins its value by expecting a fee of
exactly `EstimatedSize` notions at the minimum rate (line 454), i.e. one
notion per byte = 1000 notions/kB. -/
def suggestedFee (estSize ratePerKB multNum multDen minRatePerKB : Nat) : Nat :=
  max (estSize * ratePerKB * multNum / (1000 * multDen)) (estSize * minRatePerKB / 1000)

/-- `thought.MinFeeRate` in notions per kilobyte, as pinned by the test. -/
def minFeeRatePerKB : Nat := 1000

/-- `payToPubKeyHashScript` from `thoughtd/txscript/standard.go` lines
556–560: `OP_DUP OP_HASH160 <20-byte push> OP_EQUALVERIFY OP_CHECKSIG`
(`ScriptBuilder.AddData` emits the canonical `OP_DATA_20` push for a
20-byte datum). -/
def payToPubKeyHashScript (pubKeyHash : List Nat) : List Nat :=
  [OP_DUP, OP_HASH160, OP_DATA_20] ++ pubKeyHash ++ [OP_EQUALVERIFY, OP_CHECKSIG]

/-- Modelled from the spec: the unsigned-transaction blob Payloads hands to
Parse — "opaque JSON blob carrying tx bytes + pkScripts + input_amounts +
signer addresses" (§4.5).  JSON marshalling is out of scope (§1), so the
blob is carried structurally. -/
structure UnsignedBlob where
  transaction : MsgTx
  scriptPubKeys : List (List Nat)
  inputAmounts : List Int
  inputAddresses : List String
deriving Repr

/-- Modelled from the spec: the transaction Payloads assembles — one input
per input operation spending its coin with an empty signature script, one
P2PKH output per output operation paying the operation's amount to its
account's pubkey hash (§4.5 Payloads row).  Fails when an input operation
has no coin or an output account is not a valid testnet P2PKH address. -/
def payloadsTx (ops : List Operation) : Option MsgTx :=
  match (ops.filter isInputOp).mapM (fun o =>
    o.coin.map (fun c =>
      ({ prevHash := c.1, prevIndex := c.2, signatureScript := [],
         sequence := 4294967295 } : TxIn))) with
  | none => none
  | some ins =>
    match (ops.filter isOutputOp).mapM (fun o =>
      (addressToPubKeyHash TestNet3Params.pubKeyHashAddrID o.account).map (fun hash =>
        ({ value := o.amount, pkScript := payToPubKeyHashScript hash } : TxOut))) with
    | none => none
    | some outs => some { version := 2, txIn := ins, txOut := outs, lockTime := 0 }

/-- Modelled from the spec: the Payloads phase output consumed by Parse. -/
def payloads (ops : List Operation) (scriptPubKeys : List (List Nat)) :
    Option UnsignedBlob :=
  (payloadsTx ops).map (fun tx =>
    { transaction := tx, scriptPubKeys := scriptPubKeys,
      inputAmounts := (ops.filter isInputOp).map (·.amount),
      inputAddresses := (ops.filter isInputOp).map (·.account) })

/-- Modelled from the spec: the unsigned variant of Parse — rebuild input
operations from the transaction inputs and the carried amounts and signer
addresses, rebuild output operations by classifying each output script back
to its address, and report no signers ("unsigned lists none", §4.5). -/
def parseUnsigned (blob : UnsignedBlob) : Option (List Operation × List String) :=
  if blob.transaction.txIn.length = blob.inputAmounts.length ∧
      blob.transaction.txIn.length = blob.inputAddresses.length then
    match blob.transaction.txOut.mapM (fun o =>
      (extractPubKeyHash o.pkScript).map (fun hash =>
        ({ typ := OpType.output,
           account := addressFromPubKeyHash TestNet3Params.pubKeyHashAddrID hash,
           amount := o.value, coin := none } : Operation))) with
    | none => none
    | some outOps =>
      some ((blob.transaction.txIn.zip (blob.inputAmounts.zip blob.inputAddresses)).map
        (fun p => Operation.mk OpType.input p.snd.snd p.snd.fst
          (some (p.fst.prevHash, p.fst.prevIndex))) ++ outOps, ([] : List String))
  else none

/-- Validity of an ordered operations list for the round-trip: input
operations (each carrying a coin) followed by output operations (each
paying a well-formed testnet P2PKH address and carrying no coin). -/
def validOps (ops : List Operation) : Prop :=
  ∃ ins outs, ops = ins ++ outs ∧
    (∀ o ∈ ins, o.typ = OpType.input ∧ o.coin.isSome) ∧
    (∀ o ∈ outs, o.typ = OpType.output ∧ o.coin = none ∧
      ∃ hash, hash.length = 20 ∧ (∀ b ∈ hash, b < 256) ∧
        o.account = addressFromPubKeyHash TestNet3Params.pubKeyHashAddrID hash)

/-! ### Fixtures from `TestConstructionService`
(`thoughtd/chaincfg/params.go` lines 318–351): one input of −40000 notions
spending coin `5d7f…da7f:0`, one output of +38000 notions to
`m92udt8YzZ3B2WZ4uzjuL5sdaQuNnLM8KU`. -/

/-- The pubkey hash in the test's output script
`76a914b19e5c5433afbf7aca8a73949a48fa6b41a1089d88ac`. -/
def testPubKeyHash : List Nat :=
  [0xb1, 0x9e, 0x5c, 0x54, 0x33, 0xaf, 0xbf, 0x7a, 0xca, 0x8a,
   0x73, 0x94, 0x9a, 0x48, 0xfa, 0x6b, 0x41, 0xa1, 0x08, 0x9d]

/-- The test's P2PKH script. -/
def testPkScript : List Nat := [0x76, 0xa9, 0x14] ++ testPubKeyHash ++ [0x88, 0xac]

/-- The coin identifier `5d7ffb8cf555d87a9524d26d5b2f49570ad1b62fd58bcc391ebe8a469ce1da7f:0`
from the test. -/
def testCoinTxid : List Nat :=
  [0x5d, 0x7f, 0xfb, 0x8c, 0xf5, 0x55, 0xd8, 0x7a, 0x95, 0x24, 0xd2, 0x6d,
   0x5b, 0x2f, 0x49, 0x57, 0x0a, 0xd1, 0xb6, 0x2f, 0xd5, 0x8b, 0xcc, 0x39,
   0x1e, 0xbe, 0x8a, 0x46, 0x9c, 0xe1, 0xda, 0x7f]

/-- The test's operations: one input of −40000, one output of +38000. -/
def testOps : List Operation :=
  [{ typ := OpType.input, account := "kyw8MaocLYCniZ3NnJqNST3qtZNygLSiCC",
     amount := -40000, coin := some (testCoinTxid, 0) },
   { typ := OpType.output,
     account := addressFromPubKeyHash TestNet3Params.pubKeyHashAddrID testPubKeyHash,
     amount := 38000, coin := none }]

/-- A small two-input, one-output transaction used to witness the sighash
claims (sequences 7 and 9, one 50000-notion output). -/
def exampleTx : MsgTx :=
  { version := 2,
    txIn := [{ prevHash := List.replicate 32 0, prevIndex := 0,
               signatureScript := [], sequence := 7 },
             { prevHash := List.replicate 32 1, prevIndex := 1,
               signatureScript := [], sequence := 9 }],
    txOut := [{ value := 50000, pkScript := testPkScript }],
    lockTime := 0 }

/-! ## Tokenizer lemmas -/

theorem nextToken_shape (op : Nat) (rest : List Nat) (t : Token) (r : List Nat)
    (h : nextToken op rest = some (t, r)) :
    t.opcode = op ∧ t.raw ≠ [] ∧ op :: rest = t.raw ++ r ∧ r.length ≤ rest.length := by
  have d21 : OP_PUSHDATA2 ≠ OP_PUSHDATA1 := by decide
  have d41 : OP_PUSHDATA4 ≠ OP_PUSHDATA1 := by decide
  have d42 : OP_PUSHDATA4 ≠ OP_PUSHDATA2 := by decide
  by_cases h1 : 1 ≤ op ∧ op ≤ 75
  · by_cases h2 : op ≤ rest.length
    · simp only [nextToken, h1, h2, if_true, Option.some.injEq, Prod.mk.injEq] at h
      obtain ⟨rfl, rfl⟩ := h
      refine ⟨rfl, by simp, by simp, by simp⟩
    · simp [nextToken, h1, h2] at h
  · by_cases hp1 : op = OP_PUSHDATA1
    · subst hp1
      match rest with
      | [] => simp [nextToken, h1] at h
      | n :: r2 =>
        by_cases h4 : n ≤ r2.length
        · simp only [nextToken, h1, h4, if_true, if_false,
            eq_self_iff_true, Option.some.injEq, Prod.mk.injEq, if_pos] at h
          obtain ⟨rfl, rfl⟩ := h
          refine ⟨rfl, by simp, by simp, by simp; omega⟩
        · simp [nextToken, h1, h4] at h
    · by_cases hp2 : op = OP_PUSHDATA2
      · subst hp2
        match rest with
        | [] => simp [nextToken, h1, d21] at h
        | [a] => simp [nextToken, h1, d21] at h
        | a :: b :: r2 =>
          by_cases h5 : a + 256 * b ≤ r2.length
          · simp only [nextToken, h1, d21, h5, if_true, if_false,
              eq_self_iff_true, Option.some.injEq, Prod.mk.injEq, if_pos, if_neg] at h
            obtain ⟨rfl, rfl⟩ := h
            refine ⟨rfl, by simp, by simp, by simp; omega⟩
          · simp [nextToken, h1, d21, h5] at h
      · by_cases hp4 : op = OP_PUSHDATA4
        · subst hp4
          match rest with
          | [] => simp [nextToken, h1, d41, d42] at h
          | [a] => simp [nextToken, h1, d41, d42] at h
          | [a, b] => simp [nextToken, h1, d41, d42] at h
          | [a, b, c] => simp [nextToken, h1, d41, d42] at h
          | a :: b :: c :: d :: r2 =>
            by_cases h6 : a + 256 * b + 65536 * c + 16777216 * d ≤ r2.length
            · simp only [nextToken, h1, d41, d42, h6, if_true, if_false,
                eq_self_iff_true, Option.some.injEq, Prod.mk.injEq, if_pos, if_neg] at h
              obtain ⟨rfl, rfl⟩ := h
              refine ⟨rfl, by simp, by simp, by simp; omega⟩
            · simp [nextToken, h1, d41, d42, h6] at h
        · simp only [nextToken, h1, hp1, hp2, hp4, if_false, Option.some.injEq,
            Prod.mk.injEq] at h
          obtain ⟨rfl, rfl⟩ := h
          exact ⟨rfl, by simp, by simp, le_refl _⟩

theorem nextToken_rest_le (op : Nat) (rest : List Nat) (t : Token) (r : List Nat)
    (h : nextToken op rest = some (t, r)) : r.length ≤ rest.length :=
  (nextToken_shape op rest t r h).2.2.2

theorem nextToken_raw (op : Nat) (rest : List Nat) (t : Token) (r : List Nat)
    (h : nextToken op rest = some (t, r)) : op :: rest = t.raw ++ r :=
  (nextToken_shape op rest t r h).2.2.1

theorem nextToken_opcode (op : Nat) (rest : List Nat) (t : Token) (r : List Nat)
    (h : nextToken op rest = some (t, r)) : t.opcode = op :=
  (nextToken_shape op rest t r h).1

theorem nextToken_raw_ne_nil (op : Nat) (rest : List Nat) (t : Token) (r : List Nat)
    (h : nextToken op rest = some (t, r)) : t.raw ≠ [] :=
  (nextToken_shape op rest t r h).2.1

/-- A non-push opcode (anything other than `0x01`–`0x4e`) always parses as a
single raw byte with no data, consuming nothing further. -/
theorem nextToken_nonpush (op : Nat) (rest : List Nat)
    (h : ¬ (1 ≤ op ∧ op ≤ 78)) :
    nextToken op rest = some (⟨op, [], [op]⟩, rest) := by
  unfold nextToken
  have h1 : ¬ (1 ≤ op ∧ op ≤ 75) := by omega
  have h2 : op ≠ OP_PUSHDATA1 := by unfold OP_PUSHDATA1; omega
  have h3 : op ≠ OP_PUSHDATA2 := by unfold OP_PUSHDATA2; omega
  have h4 : op ≠ OP_PUSHDATA4 := by unfold OP_PUSHDATA4; omega
  simp [h1, h2, h3, h4]

theorem tokenizeF_mono : ∀ (f1 f2 : Nat) (s : List Nat), s.length ≤ f1 → s.length ≤ f2 →
    tokenizeF f1 s = tokenizeF f2 s := by
  intro f1
  induction f1 with
  | zero =>
    intro f2 s h1 _
    have : s = [] := by cases s <;> simp_all
    subst this
    cases f2 <;> rfl
  | succ n ih =>
    intro f2 s h1 h2
    cases s with
    | nil => cases f2 <;> rfl
    | cons op rest =>
      cases f2 with
      | zero => simp at h2
      | succ m =>
        show (match nextToken op rest with
          | none => none
          | some (t, r) => (tokenizeF n r).map (t :: ·)) =
          (match nextToken op rest with
          | none => none
          | some (t, r) => (tokenizeF m r).map (t :: ·))
        cases hnt : nextToken op rest with
        | none => rfl
        | some tr =>
          obtain ⟨t, r⟩ := tr
          have hle := nextToken_rest_le op rest t r hnt
          simp only []
          rw [ih m r (by simp at h1; omega) (by simp at h2; omega)]

theorem tokenize_nil : tokenize [] = some [] := rfl

theorem tokenize_cons (op : Nat) (rest : List Nat) :
    tokenize (op :: rest) =
      match nextToken op rest with
      | none => none
      | some (t, r) => (tokenize r).map (t :: ·) := by
  show tokenizeF (op :: rest).length (op :: rest) = _
  simp only [List.length_cons]
  show (match nextToken op rest with
    | none => none
    | some (t, r) => (tokenizeF rest.length r).map (t :: ·)) = _
  cases hnt : nextToken op rest with
  | none => rfl
  | some tr =>
    obtain ⟨t, r⟩ := tr
    have hle := nextToken_rest_le op rest t r hnt
    simp only []
    rw [tokenizeF_mono rest.length r.length r hle (le_refl _)]
    rfl

/-- Tokenization of the empty script is the only way to obtain an empty
token list. -/
theorem tokenize_eq_nil_iff (s : List Nat) : tokenize s = some [] ↔ s = [] := by
  constructor
  · intro h
    cases s with
    | nil => rfl
    | cons op rest =>
      rw [tokenize_cons] at h
      cases hnt : nextToken op rest with
      | none => rw [hnt] at h; cases h
      | some tr =>
        obtain ⟨t, r⟩ := tr
        rw [hnt] at h
        simp only [Option.map_eq_some'] at h
        obtain ⟨ts, _, h2⟩ := h
        cases h2
  · intro h; subst h; rfl

theorem tokenize_raw_concat_aux : ∀ (n : Nat) (s : List Nat), s.length ≤ n →
    ∀ ts : List Token, tokenize s = some ts → s = (ts.map Token.raw).flatten := by
  intro n
  induction n with
  | zero =>
    intro s hs ts h
    have : s = [] := by cases s <;> simp_all
    subst this
    rw [tokenize_nil] at h
    cases h
    rfl
  | succ n ih =>
    intro s hs ts h
    cases s with
    | nil =>
      rw [tokenize_nil] at h
      cases h
      rfl
    | cons op rest =>
      rw [tokenize_cons] at h
      cases hnt : nextToken op rest with
      | none => rw [hnt] at h; cases h
      | some tr =>
        obtain ⟨t, r⟩ := tr
        rw [hnt] at h
        simp only [Option.map_eq_some'] at h
        obtain ⟨ts', hts', rfl⟩ := h
        have hle := nextToken_rest_le op rest t r hnt
        have hr := ih r (by simp at hs; omega) ts' hts'
        rw [List.map_cons, List.flatten_cons, ← hr, ← nextToken_raw op rest t r hnt]

/-- The raw bytes of the parsed tokens concatenate back to the script. -/
theorem tokenize_raw_concat (s : List Nat) (ts : List Token)
    (h : tokenize s = some ts) : s = (ts.map Token.raw).flatten :=
  tokenize_raw_concat_aux s.length s (le_refl _) ts h

/-- Every token produced by a successful tokenization arises from
`nextToken` on some split of the script. -/
theorem tokenize_mem_nextToken : ∀ (n : Nat) (s : List Nat), s.length ≤ n →
    ∀ ts : List Token, tokenize s = some ts → ∀ t ∈ ts,
    ∃ op rest r, nextToken op rest = some (t, r) := by
  intro n
  induction n with
  | zero =>
    intro s hs ts h t ht
    have : s = [] := by cases s <;> simp_all
    subst this
    rw [tokenize_nil] at h
    cases h
    simp at ht
  | succ n ih =>
    intro s hs ts h t ht
    cases s with
    | nil =>
      rw [tokenize_nil] at h
      cases h
      simp at ht
    | cons op rest =>
      rw [tokenize_cons] at h
      cases hnt : nextToken op rest with
      | none => rw [hnt] at h; cases h
      | some tr =>
        obtain ⟨t0, r⟩ := tr
        rw [hnt] at h
        simp only [Option.map_eq_some'] at h
        obtain ⟨ts', hts', rfl⟩ := h
        rcases List.mem_cons.mp ht with rfl | h2
        · exact ⟨op, rest, r, hnt⟩
        · exact ih r (by have := nextToken_rest_le op rest t0 r hnt; simp at hs; omega)
            ts' hts' t h2

theorem tokenize_head (s : List Nat) (t : Token) (ts : List Token)
    (h : tokenize s = some (t :: ts)) :
    ∃ rest r, s = t.opcode :: rest ∧ nextToken t.opcode rest = some (t, r) ∧
      tokenize r = some ts := by
  cases s with
  | nil => rw [tokenize_nil] at h; cases h
  | cons op rest =>
    rw [tokenize_cons] at h
    cases hnt : nextToken op rest with
    | none => rw [hnt] at h; cases h
    | some tr =>
      obtain ⟨t0, r⟩ := tr
      rw [hnt] at h
      simp only [Option.map_eq_some'] at h
      obtain ⟨ts', hts', heq⟩ := h
      injection heq with h1 h2
      subst h2
      subst h1
      have hop := nextToken_opcode op rest t0 r hnt
      exact ⟨rest, r, by rw [hop], by rw [hop]; exact hnt, hts'⟩

theorem tokenize_mem_nonpush_raw (s : List Nat) (ts : List Token)
    (h : tokenize s = some ts) (t : Token) (ht : t ∈ ts)
    (hnp : ¬ (1 ≤ t.opcode ∧ t.opcode ≤ 78)) : t.raw = [t.opcode] ∧ t.data = [] := by
  obtain ⟨op, rest, r, hnt⟩ := tokenize_mem_nextToken s.length s (le_refl _) ts h t ht
  have hop := nextToken_opcode op rest t r hnt
  subst hop
  rw [nextToken_nonpush t.opcode rest hnp] at hnt
  injection hnt with h1
  injection h1 with h2 h3
  rw [← h2]
  exact ⟨rfl, rfl⟩

theorem tokenize_length_ge (s : List Nat) (ts : List Token)
    (h : tokenize s = some ts) : ts.length ≤ s.length := by
  have hraw := tokenize_raw_concat s ts h
  have hne : ∀ t ∈ ts, t.raw ≠ [] := by
    intro t ht
    obtain ⟨op, rest, r, hnt⟩ := tokenize_mem_nextToken s.length s (le_refl _) ts h t ht
    exact nextToken_raw_ne_nil op rest t r hnt
  calc ts.length = ((ts.map Token.raw).map List.length).length := by simp
    _ ≤ ((ts.map Token.raw).map List.length).sum := by
        apply List.length_le_sum_of_one_le
        intro x hx
        rw [List.map_map] at hx
        simp only [List.mem_map, Function.comp] at hx
        obtain ⟨t, ht, rfl⟩ := hx
        have := hne t ht
        cases htr : t.raw with
        | nil => exact absurd htr this
        | cons a l => simp [htr]
    _ = (ts.map Token.raw).flatten.length := by rw [List.length_flatten]
    _ = s.length := by rw [← hraw]

theorem msLoopF_mono : ∀ (f1 f2 : Nat) (rem : List Nat) (k : Nat) (pks : List (List Nat)),
    rem.length ≤ f1 → rem.length ≤ f2 → msLoopF f1 rem k pks = msLoopF f2 rem k pks := by
  intro f1
  induction f1 with
  | zero =>
    intro f2 rem k pks h1 _
    have : rem = [] := by cases rem <;> simp_all
    subst this
    cases f2 <;> rfl
  | succ n ih =>
    intro f2 rem k pks h1 h2
    cases rem with
    | nil => cases f2 <;> rfl
    | cons op rest =>
      cases f2 with
      | zero => simp at h2
      | succ m =>
        show (match nextToken op rest with
          | none => none
          | some (t, r) =>
            if isSmallInt t.opcode then
              if r.isEmpty then none else some (k, pks, t.opcode, r)
            else msLoopF n r (k + 1) (if isStrictPubKeyEncoding t.data then pks ++ [t.data] else pks)) =
          (match nextToken op rest with
          | none => none
          | some (t, r) =>
            if isSmallInt t.opcode then
              if r.isEmpty then none else some (k, pks, t.opcode, r)
            else msLoopF m r (k + 1) (if isStrictPubKeyEncoding t.data then pks ++ [t.data] else pks))
        cases hnt : nextToken op rest with
        | none => rfl
        | some tr =>
          obtain ⟨t, r⟩ := tr
          have hle := nextToken_rest_le op rest t r hnt
          simp only []
          by_cases hsi : isSmallInt t.opcode
          · simp [hsi]
          · simp only [hsi, if_false]
            rw [ih m r (k + 1) _ (by simp at h1; omega) (by simp at h2; omega)]

theorem msLoopF_sound : ∀ (fuel : Nat) (rem : List Nat) (k : Nat) (pks : List (List Nat))
    (kT : Nat) (pksT : List (List Nat)) (nOp : Nat) (remA : List Nat),
    rem.length ≤ fuel →
    msLoopF fuel rem k pks = some (kT, pksT, nOp, remA) →
    ∃ keys : List Token, ∃ tn : Token,
      (∀ t ∈ keys, ¬ isSmallInt t.opcode) ∧ isSmallInt tn.opcode ∧ tn.opcode = nOp ∧
      kT = k + keys.length ∧ remA ≠ [] ∧ (∃ pre, rem = pre ++ remA) ∧
      ∀ ts : List Token, tokenize remA = some ts → tokenize rem = some (keys ++ tn :: ts) := by
  intro fuel
  induction fuel with
  | zero =>
    intro rem k pks kT pksT nOp remA hlen h
    have : rem = [] := by cases rem <;> simp_all
    subst this
    cases h
  | succ n ih =>
    intro rem k pks kT pksT nOp remA hlen h
    cases rem with
    | nil => cases h
    | cons op rest =>
      show ∃ _, _
      have hstep : msLoopF (n + 1) (op :: rest) k pks =
          (match nextToken op rest with
          | none => none
          | some (t, r) =>
            if isSmallInt t.opcode then
              if r.isEmpty then none else some (k, pks, t.opcode, r)
            else msLoopF n r (k + 1)
              (if isStrictPubKeyEncoding t.data then pks ++ [t.data] else pks)) := rfl
      rw [hstep] at h
      cases hnt : nextToken op rest with
      | none => rw [hnt] at h; cases h
      | some tr =>
        obtain ⟨t, r⟩ := tr
        rw [hnt] at h
        by_cases hsi : isSmallInt t.opcode
        · simp only [hsi, if_true] at h
          by_cases hre : r.isEmpty
          · simp [hre] at h
          · simp only [hre, if_false] at h
            injection h with h1
            obtain ⟨rfl, rfl, rfl, rfl⟩ :
                k = kT ∧ pks = pksT ∧ t.opcode = nOp ∧ r = remA := by
              refine ⟨congrArg Prod.fst h1, ?_, ?_, ?_⟩
              · have := congrArg Prod.snd h1
                exact congrArg Prod.fst this
              · have := congrArg Prod.snd h1
                have := congrArg Prod.snd this
                exact congrArg Prod.fst this
              · have := congrArg Prod.snd h1
                have := congrArg Prod.snd this
                exact congrArg Prod.snd this
            refine ⟨[], t, by simp, hsi, rfl, by simp, ?_, ⟨t.raw, ?_⟩, ?_⟩
            · intro hc
              subst hc
              simp at hre
            · exact nextToken_raw op rest t r hnt
            · intro ts hts
              rw [tokenize_cons, hnt]
              simp [hts]
        · simp only [hsi, if_false] at h
          have hle := nextToken_rest_le op rest t r hnt
          obtain ⟨keys', tn, hk1, hk2, hk3, hk4, hk5, ⟨pre', hpre'⟩, hk7⟩ :=
            ih r (k + 1) _ kT pksT nOp remA (by simp at hlen; omega) h
          refine ⟨t :: keys', tn, ?_, hk2, hk3, by simp [hk4]; omega, hk5,
            ⟨t.raw ++ pre', ?_⟩, ?_⟩
          · intro u hu
            rcases List.mem_cons.mp hu with rfl | hu2
            · exact hsi
            · exact hk1 u hu2
          · rw [nextToken_raw op rest t r hnt, hpre', List.append_assoc]
          · intro ts hts
            rw [tokenize_cons, hnt]
            simp [hk7 ts hts]

theorem msLoopF_complete : ∀ (keys : List Token) (fuel : Nat) (rem : List Nat) (k : Nat)
    (pks : List (List Nat)) (tn : Token) (ts : List Token),
    rem.length ≤ fuel → tokenize rem = some (keys ++ tn :: ts) →
    (∀ t ∈ keys, ¬ isSmallInt t.opcode) → isSmallInt tn.opcode → ts ≠ [] →
    ∃ pksT remA, msLoopF fuel rem k pks = some (k + keys.length, pksT, tn.opcode, remA) ∧
      tokenize remA = some ts := by
  intro keys
  induction keys with
  | nil =>
    intro fuel rem k pks tn ts hlen htok _ hsi hts
    obtain ⟨rest, r, rfl, hnt, htr⟩ := tokenize_head rem tn ts (by simpa using htok)
    cases fuel with
    | zero => simp at hlen
    | succ n =>
      have hre : ¬ r.isEmpty := by
        intro hc
        rw [List.isEmpty_iff] at hc
        subst hc
        rw [tokenize_nil] at htr
        injection htr with h1
        exact hts h1.symm
      refine ⟨pks, r, ?_, htr⟩
      show (match nextToken tn.opcode rest with
        | none => none
        | some (t, r) =>
          if isSmallInt t.opcode then
            if r.isEmpty then none else some (k, pks, t.opcode, r)
          else msLoopF n r (k + 1)
            (if isStrictPubKeyEncoding t.data then pks ++ [t.data] else pks)) = _
      rw [hnt]
      simp [hsi, hre]
  | cons t0 keys' ih =>
    intro fuel rem k pks tn ts hlen htok hns hsi hts
    obtain ⟨rest, r, rfl, hnt, htr⟩ := tokenize_head rem t0 (keys' ++ tn :: ts)
      (by simpa using htok)
    cases fuel with
    | zero => simp at hlen
    | succ n =>
      have hle := nextToken_rest_le t0.opcode rest t0 r hnt
      have hns0 : ¬ isSmallInt t0.opcode := hns t0 (by simp)
      obtain ⟨pksT, remA, hms, hremA⟩ := ih n r (k + 1)
        (if isStrictPubKeyEncoding t0.data then pks ++ [t0.data] else pks) tn ts
        (by simp at hlen; omega) htr (fun u hu => hns u (by simp [hu])) hsi hts
      refine ⟨pksT, remA, ?_, hremA⟩
      show (match nextToken t0.opcode rest with
        | none => none
        | some (t, r) =>
          if isSmallInt t.opcode then
            if r.isEmpty then none else some (k, pks, t.opcode, r)
          else msLoopF n r (k + 1)
            (if isStrictPubKeyEncoding t.data then pks ++ [t.data] else pks)) = _
      rw [hnt]
      simp only [hns0, if_false]
      rw [hms]
      have : k + 1 + keys'.length = k + (keys'.length + 1) := by omega
      rw [this]
      rfl

/-- The single-byte `OP_CHECKMULTISIG` script tail parses as one token. -/
theorem tokenize_cms_singleton :
    tokenize [OP_CHECKMULTISIG] =
      some [⟨OP_CHECKMULTISIG, [], [OP_CHECKMULTISIG]⟩] := by decide

theorem multisig_valid_sound (s : List Nat) (h : isMultisigScript s = true) :
    ∃ tm keys tn tc, tokenize s = some (tm :: (keys ++ [tn, tc])) ∧
      isSmallInt tm.opcode ∧ (∀ t ∈ keys, ¬ isSmallInt t.opcode) ∧
      isSmallInt tn.opcode ∧ asSmallInt tn.opcode = keys.length ∧
      tc.opcode = OP_CHECKMULTISIG := by
  by_cases hguard : s.length < 3 ∨ s.getLast? ≠ some OP_CHECKMULTISIG
  · simp [isMultisigScript, extractMultisigScriptDetails, hguard] at h
  · cases hs : s with
    | nil => subst hs; simp at hguard
    | cons op rest =>
      subst hs
      cases hnt : nextToken op rest with
      | none => simp [isMultisigScript, extractMultisigScriptDetails, hguard, hnt] at h
      | some tr =>
        obtain ⟨t0, r0⟩ := tr
        by_cases hsi0 : isSmallInt t0.opcode
        · cases hms : msLoopF r0.length r0 0 [] with
          | none =>
            simp [isMultisigScript, extractMultisigScriptDetails, hguard, hnt, hsi0, hms] at h
          | some quad =>
            obtain ⟨k, pks, nOp, remA⟩ := quad
            by_cases hak : asSmallInt nOp = k
            · by_cases hr1 : remA.length = 1
              · obtain ⟨keys, tn, hk1, hk2, hk3, hk4, _, ⟨pre, hpre⟩, hk7⟩ :=
                  msLoopF_sound r0.length r0 0 [] k pks nOp remA (le_refl _) hms
                obtain ⟨x, hx⟩ : ∃ x, remA = [x] := by
                  cases remA with
                  | nil => simp at hr1
                  | cons a l =>
                    cases l with
                    | nil => exact ⟨a, rfl⟩
                    | cons b l2 => simp at hr1
                have hxcms : x = OP_CHECKMULTISIG := by
                  push_neg at hguard
                  have hlast := hguard.2
                  have hs2 : op :: rest = (t0.raw ++ pre) ++ remA := by
                    rw [nextToken_raw op rest t0 r0 hnt, hpre, List.append_assoc]
                  rw [hx] at hs2
                  rw [hs2, List.getLast?_concat] at hlast
                  exact Option.some.inj hlast
                subst hxcms
                rw [hx] at hk7
                have htc := hk7 [⟨OP_CHECKMULTISIG, [], [OP_CHECKMULTISIG]⟩]
                  tokenize_cms_singleton
                refine ⟨t0, keys, tn, ⟨OP_CHECKMULTISIG, [], [OP_CHECKMULTISIG]⟩, ?_, hsi0,
                  hk1, hk2, ?_, rfl⟩
                · rw [tokenize_cons, hnt]
                  simp [htc]
                · rw [hk3, hak, hk4]
                  omega
              · simp [isMultisigScript, extractMultisigScriptDetails, hguard, hnt, hsi0,
                  hms, hak, hr1] at h
            · simp [isMultisigScript, extractMultisigScriptDetails, hguard, hnt, hsi0,
                hms, hak] at h
        · simp [isMultisigScript, extractMultisigScriptDetails, hguard, hnt, hsi0] at h

theorem multisig_valid_complete (s : List Nat)
    (tm tn tc : Token) (keys : List Token)
    (htok : tokenize s = some (tm :: (keys ++ [tn, tc])))
    (hsm : isSmallInt tm.opcode) (hkeys : ∀ t ∈ keys, ¬ isSmallInt t.opcode)
    (hsn : isSmallInt tn.opcode) (hasn : asSmallInt tn.opcode = keys.length)
    (hcop : tc.opcode = OP_CHECKMULTISIG) : isMultisigScript s = true := by
  have htcmem : tc ∈ tm :: (keys ++ [tn, tc]) := by simp
  have htcraw : tc.raw = [tc.opcode] ∧ tc.data = [] := by
    apply tokenize_mem_nonpush_raw s _ htok tc htcmem
    rw [hcop]
    unfold OP_CHECKMULTISIG
    omega
  have hraw := tokenize_raw_concat s _ htok
  have hsplit : s = (tm.raw ++ (keys.map Token.raw).flatten ++ tn.raw) ++ [OP_CHECKMULTISIG] := by
    rw [hraw]
    simp [List.map_cons, List.map_append, List.flatten_cons, List.flatten_append,
      htcraw.1, hcop, List.append_assoc]
  have hlast : s.getLast? = some OP_CHECKMULTISIG := by
    rw [hsplit, List.getLast?_concat]
  have hlen3 : 3 ≤ s.length := by
    have := tokenize_length_ge s _ htok
    simp at this
    omega
  have hguard : ¬ (s.length < 3 ∨ s.getLast? ≠ some OP_CHECKMULTISIG) := by
    push_neg
    exact ⟨by omega, hlast⟩
  obtain ⟨rest, r0, hs, hnt, htr⟩ := tokenize_head s tm (keys ++ [tn, tc]) htok
  obtain ⟨pksT, remA, hms, hremA⟩ := msLoopF_complete keys r0.length r0 0 []
    tn [tc] (le_refl _) htr hkeys hsn (by simp)
  have hremAx : remA = tc.raw := by
    have := tokenize_raw_concat remA _ hremA
    simpa using this
  have hr1 : remA.length = 1 := by rw [hremAx, htcraw.1]; rfl
  rw [hs] at hguard ⊢
  simp [isMultisigScript, extractMultisigScriptDetails, hguard, hnt, hsm, hms, hr1, hasn]
  have hg2 : ¬ (rest.length + 1 < 3 ∨ ¬ (tm.opcode :: rest).getLast? = some OP_CHECKMULTISIG) := by
    simpa using hguard
  simp [hg2]

theorem pubkey_head_ne (b : Nat) (rest : List Nat)
    (h33 : b ≠ OP_DATA_33) (h65 : b ≠ OP_DATA_65) : isPubKeyScript (b :: rest) = false := by
  have h1 : ¬ ((b :: rest).length = 35 ∧ (b :: rest).getD 34 0 = OP_CHECKSIG ∧
      (b :: rest).getD 0 0 = OP_DATA_33 ∧
      ((b :: rest).getD 1 0 = 0x02 ∨ (b :: rest).getD 1 0 = 0x03)) := by
    rintro ⟨-, -, h3, -⟩
    rw [List.getD_cons_zero] at h3
    exact h33 h3
  have h2 : ¬ ((b :: rest).length = 67 ∧ (b :: rest).getD 66 0 = OP_CHECKSIG ∧
      (b :: rest).getD 0 0 = OP_DATA_65 ∧
      ((b :: rest).getD 1 0 = 0x04 ∨ (b :: rest).getD 1 0 = 0x06 ∨
        (b :: rest).getD 1 0 = 0x07)) := by
    rintro ⟨-, -, h3, -⟩
    rw [List.getD_cons_zero] at h3
    exact h65 h3
  unfold isPubKeyScript extractPubKey extractCompressedPubKey extractUncompressedPubKey
  rw [if_neg h1, if_neg h2]
  rfl

theorem pubkeyhash_head_ne (b : Nat) (rest : List Nat)
    (hdup : b ≠ OP_DUP) : isPubKeyHashScript (b :: rest) = false := by
  have h1 : ¬ ((b :: rest).length = 25 ∧ (b :: rest).getD 0 0 = OP_DUP ∧
      (b :: rest).getD 1 0 = OP_HASH160 ∧ (b :: rest).getD 2 0 = OP_DATA_20 ∧
      (b :: rest).getD 23 0 = OP_EQUALVERIFY ∧ (b :: rest).getD 24 0 = OP_CHECKSIG) := by
    rintro ⟨-, h3, -⟩
    rw [List.getD_cons_zero] at h3
    exact hdup h3
  unfold isPubKeyHashScript extractPubKeyHash
  rw [if_neg h1]
  rfl

theorem scripthash_head_ne (b : Nat) (rest : List Nat)
    (hh160 : b ≠ OP_HASH160) : isScriptHashScript (b :: rest) = false := by
  have h1 : ¬ ((b :: rest).length = 23 ∧ (b :: rest).getD 0 0 = OP_HASH160 ∧
      (b :: rest).getD 1 0 = OP_DATA_20 ∧ (b :: rest).getD 22 0 = OP_EQUAL) := by
    rintro ⟨-, h3, -⟩
    rw [List.getD_cons_zero] at h3
    exact hh160 h3
  unfold isScriptHashScript extractScriptHash
  rw [if_neg h1]
  rfl

theorem smallInt_values (op : Nat) (h : isSmallInt op) : op = 0 ∨ (81 ≤ op ∧ op ≤ 96) := by
  unfold isSmallInt OP_0 OP_1 OP_16 at h
  omega

/-! ## The claims -/

/-- C4 counterexample: the claim says no script with `m = 0`, or with `m`
greater than `n`, is classified as multisig.  The code classifies the
3-byte script `OP_0 OP_0 OP_CHECKMULTISIG` (`m = n = 0`) as multisig, and
likewise `OP_2 <33-byte pubkey> OP_1 OP_CHECKMULTISIG` (`m = 2 > n = 1`):
`extractMultisigScriptDetails` never checks `1 ≤ m`, `m ≤ n`, or `n ≤ 20`. -/
theorem claim_C4_counterexample :
    GetScriptClass [OP_0, OP_0, OP_CHECKMULTISIG] = MultiSigTy ∧
    (extractMultisigScriptDetails [OP_0, OP_0, OP_CHECKMULTISIG] false).requiredSigs = 0 ∧
    (extractMultisigScriptDetails [OP_0, OP_0, OP_CHECKMULTISIG] false).numPubKeys = 0 ∧
    GetScriptClass ([0x52, 0x21, 0x02] ++ List.replicate 32 7 ++ [0x51, 0xae]) = MultiSigTy ∧
    (extractMultisigScriptDetails ([0x52, 0x21, 0x02] ++ List.replicate 32 7 ++ [0x51, 0xae])
      false).requiredSigs = 2 ∧
    (extractMultisigScriptDetails ([0x52, 0x21, 0x02] ++ List.replicate 32 7 ++ [0x51, 0xae])
      false).numPubKeys = 1 := by decide

/-- C4 (amended): a script is classified as multisig exactly when it has the
form `<m> <elt>… <n> OP_CHECKMULTISIG` where `m` and `n` are small-integer
opcodes (`OP_0`–`OP_16`, so 0 ≤ m, n ≤ 16) and `n` equals the number of
tokens between `m` and `n`; those tokens need not be valid public-key
pushes, and the spec's bounds `1 ≤ m ≤ n ≤ 20` are not enforced. -/
theorem claim_C4 (s : List Nat) :
    GetScriptClass s = MultiSigTy ↔
      ∃ tm keys tn tc, tokenize s = some (tm :: (keys ++ [tn, tc])) ∧
        isSmallInt tm.opcode ∧ (∀ t ∈ keys, ¬ isSmallInt t.opcode) ∧
        isSmallInt tn.opcode ∧ asSmallInt tn.opcode = keys.length ∧
        tc.opcode = OP_CHECKMULTISIG := by
  constructor
  · intro h
    unfold GetScriptClass typeOfScript at h
    by_cases h1 : isPubKeyScript s
    · simp [h1, PubKeyTy, MultiSigTy] at h
    · by_cases h2 : isPubKeyHashScript s
      · simp [h1, h2, PubKeyHashTy, MultiSigTy] at h
      · by_cases h3 : isScriptHashScript s
        · simp [h1, h2, h3, ScriptHashTy, MultiSigTy] at h
        · by_cases h4 : isMultisigScript s
          · exact multisig_valid_sound s h4
          · by_cases h5 : isNullDataScript s
            · simp [h1, h2, h3, h4, h5, NullDataTy, MultiSigTy] at h
            · simp [h1, h2, h3, h4, h5, NonStandardTy, MultiSigTy] at h
  · rintro ⟨tm, keys, tn, tc, htok, hsm, hkeys, hsn, hasn, hcop⟩
    have hms := multisig_valid_complete s tm tn tc keys htok hsm hkeys hsn hasn hcop
    obtain ⟨rest, r0, hs, -, -⟩ := tokenize_head s tm (keys ++ [tn, tc]) htok
    have hv := smallInt_values tm.opcode hsm
    rw [hs] at hms ⊢
    unfold GetScriptClass typeOfScript
    rw [pubkey_head_ne tm.opcode rest (by unfold OP_DATA_33; omega) (by unfold OP_DATA_65; omega),
      pubkeyhash_head_ne tm.opcode rest (by unfold OP_DUP; omega),
      scripthash_head_ne tm.opcode rest (by unfold OP_HASH160; omega), hms]
    rfl

/-- C10: `ScriptClass.String` uses the guard `int(t) > len(scriptClassToName)`
instead of `>=`, so the byte value 6 passes the guard and indexes the 6-entry
name table out of range — a panic, contradicting the function's own doc
comment ("If the enum is invalid then Invalid will be returned").  Every
other byte value returns: the six defined classes return their names and
values ≥ 7 return "Invalid". -/
theorem claim_C10 :
    scriptClassString 6 = none ∧
    scriptClassString NonStandardTy = some "nonstandard" ∧
    scriptClassString PubKeyTy = some "pubkey" ∧
    scriptClassString PubKeyHashTy = some "pubkeyhash" ∧
    scriptClassString ScriptHashTy = some "scripthash" ∧
    scriptClassString MultiSigTy = some "multisig" ∧
    scriptClassString NullDataTy = some "nulldata" ∧
    ∀ c : Fin 249, scriptClassString ((c : Nat) + 7) = some "Invalid" := by
  refine ⟨rfl, rfl, rfl, rfl, rfl, rfl, rfl, ?_⟩
  intro c
  have h7 : 7 ≤ (c : Nat) + 7 := by omega
  unfold scriptClassString scriptClassToName
  rw [if_pos (by simp only [List.length_cons, List.length_nil]; omega)]

theorem multisig_head_nonsmall (b : Nat) (rest : List Nat)
    (hb : ¬ isSmallInt b) (hbp : ¬ (1 ≤ b ∧ b ≤ 78)) :
    isMultisigScript (b :: rest) = false := by
  by_cases hguard : (b :: rest).length < 3 ∨ (b :: rest).getLast? ≠ some OP_CHECKMULTISIG
  · have hg : rest.length + 1 < 3 ∨ ¬ (b :: rest).getLast? = some OP_CHECKMULTISIG := by
      simpa using hguard
    simp [isMultisigScript, extractMultisigScriptDetails, hg]
  · have hnt := nextToken_nonpush b rest hbp
    simp [isMultisigScript, extractMultisigScriptDetails, hguard, hnt, hb]

theorem nulldata_valid_iff (s : List Nat) :
    isNullDataScript s = true ↔
      (s = [OP_RETURN] ∨
        ∃ t : Token, s.head? = some OP_RETURN ∧ tokenize s.tail = some [t] ∧
          (isSmallInt t.opcode ∨ t.opcode ≤ OP_PUSHDATA4) ∧
          t.data.length ≤ MaxDataCarrierSize) := by
  constructor
  · intro h
    cases s with
    | nil => simp [isNullDataScript] at h
    | cons op0 rest =>
      by_cases hret : op0 = OP_RETURN
      · subst hret
        cases rest with
        | nil => exact Or.inl rfl
        | cons op rest2 =>
          cases hnt : nextToken op rest2 with
          | none => simp [isNullDataScript, hnt] at h
          | some tr =>
            obtain ⟨t, r⟩ := tr
            simp only [isNullDataScript, hnt, ne_eq, not_true_eq_false, if_false,
              decide_eq_true_eq] at h
            obtain ⟨hr, hop, hdl⟩ := h
            refine Or.inr ⟨t, rfl, ?_, hop, hdl⟩
            rw [List.tail_cons, tokenize_cons, hnt]
            simp [hr, tokenize_nil]
      · simp [isNullDataScript, hret] at h
  · rintro (rfl | ⟨t, hhead, htok, hop, hdl⟩)
    · rfl
    · cases s with
      | nil => cases hhead
      | cons op0 rest =>
        rw [List.head?_cons] at hhead
        injection hhead with hh
        subst hh
        rw [List.tail_cons] at htok
        cases rest with
        | nil => rw [tokenize_nil] at htok; cases htok
        | cons op rest2 =>
          rw [tokenize_cons] at htok
          cases hnt : nextToken op rest2 with
          | none => rw [hnt] at htok; cases htok
          | some tr =>
            obtain ⟨t0, r⟩ := tr
            rw [hnt] at htok
            simp only [Option.map_eq_some'] at htok
            obtain ⟨ts', hts', heq⟩ := htok
            injection heq with h1 h2
            subst h2
            subst h1
            have hr : r = [] := by
              rw [tokenize_eq_nil_iff] at hts'
              exact hts'
            simp [isNullDataScript, hnt, hr, hop, hdl]

/-- C7: a script is classified as nulldata exactly when it is the single
byte `OP_RETURN`, or `OP_RETURN` followed by exactly one token that is a
data-push opcode (a small integer or an opcode ≤ `OP_PUSHDATA4`) pushing at
most `MaxDataCarrierSize` (80) bytes.  In particular a script that does not
start with `OP_RETURN`, or with more than one token after `OP_RETURN`, or
pushing more than 80 bytes, is not nulldata. -/
theorem claim_C7 (s : List Nat) :
    GetScriptClass s = NullDataTy ↔
      (s = [OP_RETURN] ∨
        ∃ t : Token, s.head? = some OP_RETURN ∧ tokenize s.tail = some [t] ∧
          (isSmallInt t.opcode ∨ t.opcode ≤ OP_PUSHDATA4) ∧
          t.data.length ≤ MaxDataCarrierSize) := by
  rw [← nulldata_valid_iff]
  constructor
  · intro h
    unfold GetScriptClass typeOfScript at h
    by_cases h1 : isPubKeyScript s
    · simp [h1, PubKeyTy, NullDataTy] at h
    · by_cases h2 : isPubKeyHashScript s
      · simp [h1, h2, PubKeyHashTy, NullDataTy] at h
      · by_cases h3 : isScriptHashScript s
        · simp [h1, h2, h3, ScriptHashTy, NullDataTy] at h
        · by_cases h4 : isMultisigScript s
          · simp [h1, h2, h3, h4, MultiSigTy, NullDataTy] at h
          · by_cases h5 : isNullDataScript s
            · exact h5
            · simp [h1, h2, h3, h4, h5, NonStandardTy, NullDataTy] at h
  · intro h
    have hhead : ∃ rest, s = OP_RETURN :: rest := by
      cases s with
      | nil => simp [isNullDataScript] at h
      | cons op0 rest =>
        by_cases hret : op0 = OP_RETURN
        · exact ⟨rest, by rw [hret]⟩
        · simp [isNullDataScript, hret] at h
    obtain ⟨rest, rfl⟩ := hhead
    unfold GetScriptClass typeOfScript
    rw [pubkey_head_ne OP_RETURN rest (by unfold OP_RETURN OP_DATA_33; omega)
        (by unfold OP_RETURN OP_DATA_65; omega),
      pubkeyhash_head_ne OP_RETURN rest (by unfold OP_RETURN OP_DUP; omega),
      scripthash_head_ne OP_RETURN rest (by unfold OP_RETURN OP_HASH160; omega),
      multisig_head_nonsmall OP_RETURN rest (by decide) (by unfold OP_RETURN; omega), h]
    rfl

set_option maxRecDepth 1000000 in
/-- C6: a script is classified as pubkeyhash exactly when it is 25 bytes of
the form `OP_DUP OP_HASH160 <20-byte push> OP_EQUALVERIFY OP_CHECKSIG`; the
concrete script `76a914b19e5c5433afbf7aca8a73949a48fa6b41a1089d88ac`
classifies as pubkeyhash, its extracted hash is `b19e…089d`, and with the
testnet P2PKH version byte 0x6d from `TestNet3Params` the derived
Base58Check address is `m92udt8YzZ3B2WZ4uzjuL5sdaQuNnLM8KU`. -/
theorem claim_C6 :
    (∀ s : List Nat, GetScriptClass s = PubKeyHashTy ↔
      (s.length = 25 ∧ s.getD 0 0 = OP_DUP ∧ s.getD 1 0 = OP_HASH160 ∧
        s.getD 2 0 = OP_DATA_20 ∧ s.getD 23 0 = OP_EQUALVERIFY ∧
        s.getD 24 0 = OP_CHECKSIG)) ∧
    GetScriptClass testPkScript = PubKeyHashTy ∧
    extractPubKeyHash testPkScript = some testPubKeyHash ∧
    TestNet3Params.pubKeyHashAddrID = 0x6d ∧
    addressFromPubKeyHash TestNet3Params.pubKeyHashAddrID testPubKeyHash =
      "m92udt8YzZ3B2WZ4uzjuL5sdaQuNnLM8KU" := by
  refine ⟨?_, by decide, by decide, rfl, by decide⟩
  intro s
  constructor
  · intro h
    unfold GetScriptClass typeOfScript at h
    by_cases h1 : isPubKeyScript s
    · simp [h1, PubKeyTy, PubKeyHashTy] at h
    · by_cases h2 : isPubKeyHashScript s
      · unfold isPubKeyHashScript extractPubKeyHash at h2
        by_cases hc : s.length = 25 ∧ s.getD 0 0 = OP_DUP ∧ s.getD 1 0 = OP_HASH160 ∧
            s.getD 2 0 = OP_DATA_20 ∧ s.getD 23 0 = OP_EQUALVERIFY ∧
            s.getD 24 0 = OP_CHECKSIG
        · exact hc
        · rw [if_neg hc] at h2
          cases h2
      · by_cases h3 : isScriptHashScript s
        · simp [h1, h2, h3, ScriptHashTy, PubKeyHashTy] at h
        · by_cases h4 : isMultisigScript s
          · simp [h1, h2, h3, h4, MultiSigTy, PubKeyHashTy] at h
          · by_cases h5 : isNullDataScript s
            · simp [h1, h2, h3, h4, h5, NullDataTy, PubKeyHashTy] at h
            · simp [h1, h2, h3, h4, h5, NonStandardTy, PubKeyHashTy] at h
  · intro hc
    have hlen := hc.1
    have hpk : isPubKeyScript s = false := by
      unfold isPubKeyScript extractPubKey extractCompressedPubKey extractUncompressedPubKey
      rw [if_neg (by rintro ⟨h35, -⟩; omega), if_neg (by rintro ⟨h67, -⟩; omega)]
      rfl
    have hpkh : isPubKeyHashScript s = true := by
      unfold isPubKeyHashScript extractPubKeyHash
      rw [if_pos hc]
      rfl
    unfold GetScriptClass typeOfScript
    rw [hpk, hpkh]
    rfl

/-- C1: when `hashType & 0x1f = SIGHASH_SINGLE` and the input index is not
covered by the outputs, the legacy signature hash is the 32-byte value
0x01,0x00,…,0x00 — the preserved Satoshi compatibility bug
(`thoughtd/txscript/sighash.go` lines 106–110). -/
theorem claim_C1 (sigScript : List Nat) (hashType : Nat) (tx : MsgTx) (idx : Nat)
    (hmask : hashType % 32 = SigHashSingle) (hidx : tx.txOut.length ≤ idx) :
    calcSignatureHash sigScript hashType tx idx = 1 :: List.replicate 31 0 := by
  unfold calcSignatureHash
  rw [if_pos ⟨hmask, hidx⟩]

/-- C1 witness: a transaction with 2 inputs and 1 output, hash type
`SIGHASH_SINGLE` (3), input index 1 (no matching output): the hash is 0x01
followed by 31 zero bytes. -/
theorem claim_C1_witness :
    3 % 32 = SigHashSingle ∧ exampleTx.txOut.length ≤ 1 ∧
    calcSignatureHash [] 3 exampleTx 1 = 1 :: List.replicate 31 0 :=
  ⟨by decide, by decide, claim_C1 [] 3 exampleTx 1 (by decide) (by decide)⟩

theorem mapWithIdx_length (f : Nat → α → β) : ∀ (i : Nat) (l : List α),
    (mapWithIdx f i l).length = l.length := by
  intro i l
  induction l generalizing i with
  | nil => rfl
  | cons x xs ih => simp [mapWithIdx, ih]

theorem mapWithIdx_getD (f : Nat → α → β) [Inhabited α] [Inhabited β] :
    ∀ (i : Nat) (l : List α) (j : Nat), j < l.length →
    (mapWithIdx f i l).getD j default = f (i + j) (l.getD j default) := by
  intro i l
  induction l generalizing i with
  | nil => intro j hj; simp at hj
  | cons x xs ih =>
    intro j hj
    cases j with
    | zero => simp [mapWithIdx]
    | succ j' =>
      have := ih (i + 1) j' (by simp at hj; omega)
      simp only [mapWithIdx, List.getD_cons_succ]
      rw [this]
      congr 1
      omega

theorem drop_take_one {α : Type} [Inhabited α] (l : List α) (n : Nat) (h : n < l.length) :
    (l.drop n).take 1 = [l.getD n default] := by
  induction l generalizing n with
  | nil => simp at h
  | cons x xs ih =>
    cases n with
    | zero => simp
    | succ m => simpa using ih m (by simpa using h)

/-- C8: with `hashType & 0x1f = SIGHASH_NONE` and a valid input index, the
canonicalized view serialized and hashed by `calcSignatureHash` has an empty
output list; without `SIGHASH_ANYONECANPAY` it keeps one entry per input,
zeroing the sequence of every input other than `idx` while input `idx` keeps
its original sequence, and with `SIGHASH_ANYONECANPAY` the view retains
exactly the one input `idx`, still with its original sequence
(`thoughtd/txscript/sighash.go` lines 126–133, 161–163). -/
theorem claim_C8 (sigScript : List Nat) (hashType : Nat) (tx : MsgTx) (idx : Nat)
    (hmask : hashType % 32 = SigHashNone) (hidx : idx < tx.txIn.length) :
    (sighashView sigScript hashType tx idx).txOut = [] ∧
    (hashType / 128 % 2 = 0 →
      (sighashView sigScript hashType tx idx).txIn.length = tx.txIn.length ∧
      (∀ i, i < tx.txIn.length → i ≠ idx →
        ((sighashView sigScript hashType tx idx).txIn.getD i default).sequence = 0) ∧
      ((sighashView sigScript hashType tx idx).txIn.getD idx default).sequence =
        (tx.txIn.getD idx default).sequence) ∧
    (hashType / 128 % 2 = 1 →
      (sighashView sigScript hashType tx idx).txIn.length = 1 ∧
      ((sighashView sigScript hashType tx idx).txIn.getD 0 default).sequence =
        (tx.txIn.getD idx default).sequence) := by
  have hnotsingle : hashType % 32 ≠ SigHashSingle := by
    rw [hmask]
    unfold SigHashNone SigHashSingle
    omega
  have hseq : ∀ i, i < tx.txIn.length →
      ((mapWithIdx (fun i (ti : TxIn) => if i ≠ idx then { ti with sequence := 0 } else ti) 0
        (mapWithIdx (fun i (ti : TxIn) => if i = idx then { ti with signatureScript := sigScript }
          else { ti with signatureScript := [] }) 0 tx.txIn)).getD i default).sequence =
        if i ≠ idx then 0 else (tx.txIn.getD i default).sequence := by
    intro i hi
    rw [mapWithIdx_getD _ 0 _ i (by rw [mapWithIdx_length]; exact hi),
      mapWithIdx_getD _ 0 _ i hi]
    simp only [Nat.zero_add]
    by_cases hne : i = idx
    · subst hne
      simp
    · simp [hne]
  have hlen2 : (mapWithIdx (fun i (ti : TxIn) => if i ≠ idx then { ti with sequence := 0 } else ti) 0
      (mapWithIdx (fun i (ti : TxIn) => if i = idx then { ti with signatureScript := sigScript }
        else { ti with signatureScript := [] }) 0 tx.txIn)).length = tx.txIn.length := by
    rw [mapWithIdx_length, mapWithIdx_length]
  by_cases hacp : hashType / 128 % 2 = 1
  · have hT : sighashView sigScript hashType tx idx =
        { version := tx.version, lockTime := tx.lockTime, txOut := [],
          txIn := ((mapWithIdx (fun i (ti : TxIn) => if i ≠ idx then { ti with sequence := 0 } else ti) 0
            (mapWithIdx (fun i (ti : TxIn) => if i = idx then { ti with signatureScript := sigScript }
              else { ti with signatureScript := [] }) 0 tx.txIn)).drop idx).take 1 } := by
      unfold sighashView
      simp [hmask, hnotsingle, hacp]
    rw [hT]
    refine ⟨rfl, ?_, ?_⟩
    · intro h0
      rw [hacp] at h0
      cases h0
    · intro _
      rw [drop_take_one _ idx (by rw [hlen2]; exact hidx)]
      refine ⟨rfl, ?_⟩
      simp only [List.getD_cons_zero]
      have := hseq idx hidx
      simpa using this
  · have hacp0 : hashType / 128 % 2 = 0 := by omega
    have hT : sighashView sigScript hashType tx idx =
        { version := tx.version, lockTime := tx.lockTime, txOut := [],
          txIn := mapWithIdx (fun i (ti : TxIn) => if i ≠ idx then { ti with sequence := 0 } else ti) 0
            (mapWithIdx (fun i (ti : TxIn) => if i = idx then { ti with signatureScript := sigScript }
              else { ti with signatureScript := [] }) 0 tx.txIn) } := by
      unfold sighashView
      simp [hmask, hnotsingle, hacp]
    rw [hT]
    refine ⟨rfl, ?_, ?_⟩
    · intro _
      refine ⟨hlen2, ?_, ?_⟩
      · intro i hi hne
        have := hseq i hi
        simpa [hne] using this
      · have := hseq idx hidx
        simpa using this
    · intro h1
      rw [hacp0] at h1
      cases h1

/-- C8 witness: hash type `SIGHASH_NONE` (2) on the two-input example
transaction at input index 0: the view's outputs are empty, the other
input's sequence is zeroed, and input 0 keeps its sequence 7. -/
theorem claim_C8_witness :
    2 % 32 = SigHashNone ∧ 0 < exampleTx.txIn.length ∧
    (sighashView [] 2 exampleTx 0).txOut = [] ∧
    (sighashView [] 2 exampleTx 0).txIn.length = exampleTx.txIn.length ∧
    ((sighashView [] 2 exampleTx 0).txIn.getD 1 default).sequence = 0 ∧
    ((sighashView [] 2 exampleTx 0).txIn.getD 0 default).sequence = 7 := by
  have h := claim_C8 [] 2 exampleTx 0 (by decide) (by decide)
  have hno := h.2.1 (by decide)
  refine ⟨by decide, by decide, h.1, hno.1, ?_, ?_⟩
  · exact hno.2.1 1 (by decide) (by decide)
  · exact hno.2.2.trans (by decide)

theorem estimateSize_go (ops : List Operation) : ∀ acc : Nat,
    ops.foldl (fun acc o =>
      match o.typ with
      | OpType.input => acc + 68
      | OpType.output => acc + 9 + 25) acc =
    acc + 68 * ops.countP isInputOp + 34 * ops.countP isOutputOp := by
  induction ops with
  | nil => intro acc; simp
  | cons o os ih =>
    intro acc
    rw [List.foldl_cons]
    cases hty : o.typ
    · simp only [hty, List.countP_cons, isInputOp, isOutputOp, hty]
      rw [ih]
      simp [isInputOp, isOutputOp, hty]
      omega
    · simp only [hty, List.countP_cons, isInputOp, isOutputOp, hty]
      rw [ih]
      simp [isInputOp, isOutputOp, hty]
      omega

/-- C2 counterexample: the spec formula gives 192 estimated bytes for one
input and one output, but the code (as pinned by the repository's own test,
`EstimatedSize: 114` in `thoughtd/chaincfg/params.go` line 374) estimates
114 — outside the claimed ±20 tolerance. -/
theorem claim_C2_counterexample :
    specEstimatedSize 1 1 = 192 ∧
    testOps.countP isInputOp = 1 ∧ testOps.countP isOutputOp = 1 ∧
    estimateSize testOps = 114 ∧
    ¬ (192 - 20 ≤ estimateSize testOps ∧ estimateSize testOps ≤ 192 + 20) := by decide

/-- C2 (amended): the Preprocess size estimate is 12 + 68·#inputs +
34·#outputs bytes (12 bytes transaction overhead, 68 per input, 9 + 25 per
P2PKH output); for the test's one-input, one-output operations list it is
114 bytes, the value the repository test pins. -/
theorem claim_C2 (ops : List Operation) :
    estimateSize ops = 12 + 68 * ops.countP isInputOp + 34 * ops.countP isOutputOp ∧
    estimateSize testOps = 114 :=
  ⟨estimateSize_go ops 12, by decide⟩

/-- C3: the Metadata suggested fee is max(est·effective_rate, est·min_rate):
with the code's estimated size (114), fee multiplier 3/4 and a node feerate
of 10× the minimum the fee is 855 notions (the repository test's pinned
value); at the minimum feerate the fee is floored at est·min_rate = 114; and
for all inputs the fee never falls below est·min_rate. -/
theorem claim_C3 :
    suggestedFee (estimateSize testOps) (10 * minFeeRatePerKB) 3 4 minFeeRatePerKB = 855 ∧
    suggestedFee (estimateSize testOps) minFeeRatePerKB 3 4 minFeeRatePerKB =
      estimateSize testOps ∧
    (∀ est rate mn md minr : Nat, suggestedFee est rate mn md minr =
      max (est * rate * mn / (1000 * md)) (est * minr / 1000)) ∧
    (∀ est rate mn md minr : Nat, est * minr / 1000 ≤ suggestedFee est rate mn md minr) :=
  ⟨by decide, by decide, fun _ _ _ _ _ => rfl, fun _ _ _ _ _ => le_max_right _ _⟩

theorem take_set_of_le {α : Type} (l : List α) (x : α) : ∀ (a k : Nat), k ≤ a →
    (l.set a x).take k = l.take k := by
  induction l with
  | nil => intro a k _; simp
  | cons y ys ih =>
    intro a k hk
    cases a with
    | zero =>
      have : k = 0 := by omega
      subst this
      simp
    | succ a' =>
      cases k with
      | zero => simp
      | succ k' =>
        simp only [List.set_cons_succ, List.take_succ_cons]
        rw [ih a' k' (by omega)]

theorem writeIn_frame (hh : Heap) (a : Nat) (f : TxIn → TxIn) (k : Nat) (hk : k ≤ a) :
    (writeIn hh a f).ins.take k = hh.ins.take k ∧ (writeIn hh a f).outs = hh.outs :=
  ⟨take_set_of_le hh.ins _ a k hk, rfl⟩

theorem writeOut_frame (hh : Heap) (a : Nat) (f : TxOut → TxOut) (k : Nat) (hk : k ≤ a) :
    (writeOut hh a f).outs.take k = hh.outs.take k ∧ (writeOut hh a f).ins = hh.ins :=
  ⟨take_set_of_le hh.outs _ a k hk, rfl⟩

theorem foldl_ins_frame {β : Type} (l : List β) (g : Heap → β → Heap) (k : Nat)
    (hg : ∀ hh b, b ∈ l → (g hh b).ins.take k = hh.ins.take k ∧ (g hh b).outs = hh.outs) :
    ∀ hh : Heap, (l.foldl g hh).ins.take k = hh.ins.take k ∧ (l.foldl g hh).outs = hh.outs := by
  induction l with
  | nil => intro hh; exact ⟨rfl, rfl⟩
  | cons b bs ih =>
    intro hh
    rw [List.foldl_cons]
    have hhead := hg hh b (by simp)
    have htail := ih (fun hh' b' hb' => hg hh' b' (by simp [hb'])) (g hh b)
    exact ⟨htail.1.trans hhead.1, htail.2.trans hhead.2⟩

theorem foldl_outs_frame {β : Type} (l : List β) (g : Heap → β → Heap) (k : Nat)
    (hg : ∀ hh b, b ∈ l → (g hh b).outs.take k = hh.outs.take k ∧ (g hh b).ins = hh.ins) :
    ∀ hh : Heap, (l.foldl g hh).outs.take k = hh.outs.take k ∧ (l.foldl g hh).ins = hh.ins := by
  induction l with
  | nil => intro hh; exact ⟨rfl, rfl⟩
  | cons b bs ih =>
    intro hh
    rw [List.foldl_cons]
    have hhead := hg hh b (by simp)
    have htail := ih (fun hh' b' hb' => hg hh' b' (by simp [hb'])) (g hh b)
    exact ⟨htail.1.trans hhead.1, htail.2.trans hhead.2⟩

theorem mapWithIdx_pair_mem {α : Type} : ∀ (i : Nat) (l : List α) (p : Nat × α),
    p ∈ mapWithIdx (fun i a => (i, a)) i l → p.2 ∈ l := by
  intro i l
  induction l generalizing i with
  | nil => intro p hp; simp [mapWithIdx] at hp
  | cons x xs ih =>
    intro p hp
    simp only [mapWithIdx, List.mem_cons] at hp
    rcases hp with rfl | hp
    · simp
    · exact List.mem_cons_of_mem _ (ih (i + 1) p hp)

theorem scriptClearWrites_frame (s : List Nat) (idx : Nat) (txCopy : MsgTxRef) (k : Nat)
    (haddr : ∀ a ∈ txCopy.txIn, k ≤ a) (hh : Heap) :
    (scriptClearWrites s idx txCopy hh).ins.take k = hh.ins.take k ∧
    (scriptClearWrites s idx txCopy hh).outs = hh.outs := by
  apply foldl_ins_frame
  intro hh' p hp
  exact writeIn_frame hh' p.2 _ k (haddr p.2 (mapWithIdx_pair_mem 0 txCopy.txIn p hp))

theorem seqZeroWrites_frame (idx : Nat) (txCopy : MsgTxRef) (k : Nat)
    (haddr : ∀ a ∈ txCopy.txIn, k ≤ a) (hh : Heap) :
    (seqZeroWrites idx txCopy hh).ins.take k = hh.ins.take k ∧
    (seqZeroWrites idx txCopy hh).outs = hh.outs := by
  apply foldl_ins_frame
  intro hh' p hp
  by_cases hne : p.1 ≠ idx
  · rw [if_pos hne]
    exact writeIn_frame hh' p.2 _ k (haddr p.2 (mapWithIdx_pair_mem 0 txCopy.txIn p hp))
  · rw [if_neg hne]
    exact ⟨rfl, rfl⟩

theorem singleOutWrites_frame (idx : Nat) (txCopy : MsgTxRef) (k : Nat)
    (haddr : ∀ a ∈ txCopy.txOut, k ≤ a) (hh : Heap) :
    (singleOutWrites idx txCopy hh).outs.take k = hh.outs.take k ∧
    (singleOutWrites idx txCopy hh).ins = hh.ins := by
  apply foldl_outs_frame
  intro hh' a ha
  exact writeOut_frame hh' a _ k (haddr a (List.mem_of_mem_take ha))

theorem maskHeap_frame (hashType idx : Nat) (txCopy : MsgTxRef) (kin kout : Nat)
    (haddrIn : ∀ a ∈ txCopy.txIn, kin ≤ a) (haddrOut : ∀ a ∈ txCopy.txOut, kout ≤ a)
    (hh : Heap) :
    (maskHeap hashType idx txCopy hh).ins.take kin = hh.ins.take kin ∧
    (maskHeap hashType idx txCopy hh).outs.take kout = hh.outs.take kout := by
  unfold maskHeap
  by_cases hN : hashType % 32 = SigHashNone
  · rw [if_pos hN]
    have := seqZeroWrites_frame idx txCopy kin haddrIn hh
    exact ⟨this.1, by rw [this.2]⟩
  · by_cases hS : hashType % 32 = SigHashSingle
    · rw [if_neg hN, if_pos hS]
      have h1 := singleOutWrites_frame idx txCopy kout haddrOut hh
      have h2 := seqZeroWrites_frame idx txCopy kin haddrIn (singleOutWrites idx txCopy hh)
      refine ⟨?_, ?_⟩
      · rw [h2.1, h1.2]
      · rw [h2.2, h1.1]
    · rw [if_neg hN, if_neg hS]
      exact ⟨rfl, rfl⟩

theorem getD_of_take_eq {α : Type} [Inhabited α] : ∀ (l l' : List α) (k a : Nat),
    l'.take k = l.take k → a < k → l'.getD a default = l.getD a default := by
  intro l l' k a htake ha
  have h1 : (l'.take k).getD a default = l'.getD a default := by
    rw [List.getD_eq_getElem?_getD, List.getD_eq_getElem?_getD, List.getElem?_take_of_lt ha]
  have h2 : (l.take k).getD a default = l.getD a default := by
    rw [List.getD_eq_getElem?_getD, List.getD_eq_getElem?_getD, List.getElem?_take_of_lt ha]
  rw [← h1, ← h2, htake]

/-- C9: computing the legacy signature hash does not mutate the caller's
transaction.  In the heap model every cell that existed before the call —
in particular every input and output record the transaction references — is
unchanged afterwards, and dereferencing the transaction yields the same
value as before: `shallowCopyTx` allocates fresh cells and every store of
`calcSignatureHash` targets only those. -/
theorem claim_C9 (sigScript : List Nat) (hashType : Nat) (tx : MsgTxRef) (idx : Nat)
    (h : Heap) (hins : ∀ a ∈ tx.txIn, a < h.ins.length)
    (houts : ∀ a ∈ tx.txOut, a < h.outs.length) :
    (calcSignatureHashST sigScript hashType tx idx h).2.ins.take h.ins.length = h.ins ∧
    (calcSignatureHashST sigScript hashType tx idx h).2.outs.take h.outs.length = h.outs ∧
    derefTx (calcSignatureHashST sigScript hashType tx idx h).2 tx = derefTx h tx := by
  by_cases hbug : hashType % 32 = SigHashSingle ∧ tx.txOut.length ≤ idx
  · have hsnd : (calcSignatureHashST sigScript hashType tx idx h).2 = h := by
      unfold calcSignatureHashST
      rw [if_pos hbug]
    rw [hsnd]
    exact ⟨List.take_length h.ins, List.take_length h.outs, rfl⟩
  · have hsnd : (calcSignatureHashST sigScript hashType tx idx h).2 =
        maskHeap hashType idx (shallowCopyTxST tx h).1
          (scriptClearWrites (removeOpcodeRaw sigScript OP_CODESEPARATOR) idx
            (shallowCopyTxST tx h).1 (shallowCopyTxST tx h).2) := by
      unfold calcSignatureHashST
      rw [if_neg hbug]
    have haddrIn : ∀ a ∈ (shallowCopyTxST tx h).1.txIn, h.ins.length ≤ a := by
      intro a ha
      have hrw : (shallowCopyTxST tx h).1.txIn =
          (List.range tx.txIn.length).map (· + h.ins.length) := rfl
      rw [hrw] at ha
      simp only [List.mem_map, List.mem_range] at ha
      omega
    have haddrOut : ∀ a ∈ (shallowCopyTxST tx h).1.txOut, h.outs.length ≤ a := by
      intro a ha
      have hrw : (shallowCopyTxST tx h).1.txOut =
          (List.range tx.txOut.length).map (· + h.outs.length) := rfl
      rw [hrw] at ha
      simp only [List.mem_map, List.mem_range] at ha
      omega
    have hclear := scriptClearWrites_frame (removeOpcodeRaw sigScript OP_CODESEPARATOR) idx
      (shallowCopyTxST tx h).1 h.ins.length haddrIn (shallowCopyTxST tx h).2
    have hmask := maskHeap_frame hashType idx (shallowCopyTxST tx h).1
      h.ins.length h.outs.length haddrIn haddrOut
      (scriptClearWrites (removeOpcodeRaw sigScript OP_CODESEPARATOR) idx
        (shallowCopyTxST tx h).1 (shallowCopyTxST tx h).2)
    have h1ins : (shallowCopyTxST tx h).2.ins.take h.ins.length = h.ins := by
      have : (shallowCopyTxST tx h).2.ins = h.ins ++ tx.txIn.map (readIn h) := rfl
      rw [this, List.take_left]
    have h1outs : (shallowCopyTxST tx h).2.outs.take h.outs.length = h.outs := by
      have : (shallowCopyTxST tx h).2.outs = h.outs ++ tx.txOut.map (readOut h) := rfl
      rw [this, List.take_left]
    have hfins : (calcSignatureHashST sigScript hashType tx idx h).2.ins.take h.ins.length =
        h.ins := by
      rw [hsnd, hmask.1, hclear.1, h1ins]
    have hfouts : (calcSignatureHashST sigScript hashType tx idx h).2.outs.take h.outs.length =
        h.outs := by
      rw [hsnd, hmask.2, hclear.2, h1outs]
    refine ⟨hfins, hfouts, ?_⟩
    unfold derefTx
    have hgin : ∀ a ∈ tx.txIn,
        readIn (calcSignatureHashST sigScript hashType tx idx h).2 a = readIn h a := by
      intro a ha
      unfold readIn
      apply getD_of_take_eq h.ins _ h.ins.length a _ (hins a ha)
      rw [hfins, List.take_length]
    have hgout : ∀ a ∈ tx.txOut,
        readOut (calcSignatureHashST sigScript hashType tx idx h).2 a = readOut h a := by
      intro a ha
      unfold readOut
      apply getD_of_take_eq h.outs _ h.outs.length a _ (houts a ha)
      rw [hfouts, List.take_length]
    rw [List.map_congr_left hgin, List.map_congr_left hgout]

/-- C9 witness: a concrete heap holding the two-input example transaction's
records; after computing the sighash (type `SIGHASH_ALL`) the original cells
and the dereferenced transaction are unchanged. -/
theorem claim_C9_witness :
    (∀ a ∈ [0, 1], a < (Heap.mk [⟨List.replicate 32 0, 0, [7], 5⟩,
        ⟨List.replicate 32 1, 1, [8], 9⟩] [⟨50000, [0x51]⟩]).ins.length) ∧
    (∀ a ∈ [0], a < (Heap.mk [⟨List.replicate 32 0, 0, [7], 5⟩,
        ⟨List.replicate 32 1, 1, [8], 9⟩] [⟨50000, [0x51]⟩]).outs.length) ∧
    ((calcSignatureHashST [] 1 (MsgTxRef.mk 2 [0, 1] [0] 0) 0
        (Heap.mk [⟨List.replicate 32 0, 0, [7], 5⟩, ⟨List.replicate 32 1, 1, [8], 9⟩]
          [⟨50000, [0x51]⟩])).2.ins.take 2 =
      [⟨List.replicate 32 0, 0, [7], 5⟩, ⟨List.replicate 32 1, 1, [8], 9⟩] ∧
     (calcSignatureHashST [] 1 (MsgTxRef.mk 2 [0, 1] [0] 0) 0
        (Heap.mk [⟨List.replicate 32 0, 0, [7], 5⟩, ⟨List.replicate 32 1, 1, [8], 9⟩]
          [⟨50000, [0x51]⟩])).2.outs.take 1 = [⟨50000, [0x51]⟩] ∧
     derefTx (calcSignatureHashST [] 1 (MsgTxRef.mk 2 [0, 1] [0] 0) 0
        (Heap.mk [⟨List.replicate 32 0, 0, [7], 5⟩, ⟨List.replicate 32 1, 1, [8], 9⟩]
          [⟨50000, [0x51]⟩])).2 (MsgTxRef.mk 2 [0, 1] [0] 0) =
      derefTx (Heap.mk [⟨List.replicate 32 0, 0, [7], 5⟩, ⟨List.replicate 32 1, 1, [8], 9⟩]
          [⟨50000, [0x51]⟩]) (MsgTxRef.mk 2 [0, 1] [0] 0)) :=
  ⟨by decide, by decide,
    claim_C9 [] 1 (MsgTxRef.mk 2 [0, 1] [0] 0) 0
      (Heap.mk [⟨List.replicate 32 0, 0, [7], 5⟩, ⟨List.replicate 32 1, 1, [8], 9⟩]
        [⟨50000, [0x51]⟩]) (by decide) (by decide)⟩

theorem natToB58Rev_lt : ∀ (fuel n : Nat), ∀ d ∈ natToB58Rev fuel n, d < 58 := by
  intro fuel
  induction fuel with
  | zero => intro n d hd; simp [natToB58Rev] at hd
  | succ f ih =>
    intro n d hd
    unfold natToB58Rev at hd
    by_cases hn : n = 0
    · simp [hn] at hd
    · rw [if_neg hn] at hd
      rcases List.mem_cons.mp hd with rfl | hd2
      · exact Nat.mod_lt _ (by omega)
      · exact ih (n / 58) d hd2

theorem natToB58Rev_foldl : ∀ (fuel n : Nat), n < 58 ^ fuel →
    (natToB58Rev fuel n).reverse.foldl (fun a d => a * 58 + d) 0 = n := by
  intro fuel
  induction fuel with
  | zero => intro n hn; interval_cases n; rfl
  | succ f ih =>
    intro n hn
    unfold natToB58Rev
    by_cases hn0 : n = 0
    · simp [hn0]
    · rw [if_neg hn0]
      rw [List.reverse_cons, List.foldl_append]
      have hdiv : n / 58 < 58 ^ f := by
        rw [Nat.div_lt_iff_lt_mul (by omega)]
        calc n < 58 ^ (f + 1) := hn
          _ = 58 ^ f * 58 := by ring
      rw [ih (n / 58) hdiv]
      simp only [List.foldl_cons, List.foldl_nil]
      omega

theorem b58DigitOf_enc : ∀ d : Fin 58, b58DigitOf (base58Chars.getD (d : Nat) '?') =
    some (d : Nat) := by decide

theorem b58Digits_map_enc (l : List Nat) (h : ∀ d ∈ l, d < 58) :
    b58Digits (l.map (fun d => base58Chars.getD d '?')) = some l := by
  induction l with
  | nil => rfl
  | cons d ds ih =>
    have hd : d < 58 := h d (by simp)
    have hds := ih (fun x hx => h x (by simp [hx]))
    unfold b58Digits at hds ⊢
    rw [List.map_cons, List.foldr_cons, hds, b58DigitOf_enc ⟨d, hd⟩]

theorem bytesToNat_append_one (l : List Nat) (b : Nat) :
    bytesToNat (l ++ [b]) = bytesToNat l * 256 + b := by
  unfold bytesToNat
  rw [List.foldl_append]
  rfl

theorem bytesToNat_lt_aux (l : List Nat) : ∀ acc : Nat, (∀ b ∈ l, b < 256) →
    l.foldl (fun acc b => acc * 256 + b) acc < (acc + 1) * 256 ^ l.length := by
  induction l with
  | nil => intro acc _; simp
  | cons b bs ih =>
    intro acc h
    rw [List.foldl_cons]
    have hb : b < 256 := h b (by simp)
    have := ih (acc * 256 + b) (fun x hx => h x (by simp [hx]))
    calc List.foldl (fun acc b => acc * 256 + b) (acc * 256 + b) bs
        < (acc * 256 + b + 1) * 256 ^ bs.length := this
      _ ≤ ((acc + 1) * 256) * 256 ^ bs.length := by
          apply Nat.mul_le_mul_right
          omega
      _ = (acc + 1) * 256 ^ (b :: bs).length := by
          rw [List.length_cons]
          ring

theorem bytesToNat_lt (l : List Nat) (h : ∀ b ∈ l, b < 256) :
    bytesToNat l < 256 ^ l.length := by
  have := bytesToNat_lt_aux l 0 h
  simpa [bytesToNat] using this

theorem natToBytesBE_bytesToNat : ∀ (k : Nat) (l : List Nat), l.length = k →
    (∀ b ∈ l, b < 256) → natToBytesBE k (bytesToNat l) = l := by
  intro k
  induction k with
  | zero =>
    intro l hl _
    have : l = [] := List.length_eq_zero.mp hl
    subst this
    rfl
  | succ k' ih =>
    intro l hl hb
    rcases l.eq_nil_or_concat with rfl | ⟨l1, b, rfl⟩
    · simp at hl
    · rw [List.concat_eq_append] at hl hb ⊢
      rw [bytesToNat_append_one]
      have hblt : b < 256 := hb b (by simp)
      have hdiv : (bytesToNat l1 * 256 + b) / 256 = bytesToNat l1 := by
        rw [Nat.add_comm, Nat.add_mul_div_right _ _ (by omega : (0:Nat) < 256)]
        omega
      have hmod : (bytesToNat l1 * 256 + b) % 256 = b := by
        rw [Nat.add_comm, Nat.add_mul_mod_self_right]
        omega
      unfold natToBytesBE
      rw [hdiv, hmod, ih l1 (by simp at hl; omega) (fun x hx => hb x (by simp [hx]))]

theorem shaBytes_foldr_lt : ∀ st : List Nat,
    ∀ b ∈ st.foldr (fun w acc =>
      w / 2 ^ 24 % 256 :: w / 2 ^ 16 % 256 :: w / 2 ^ 8 % 256 :: w % 256 :: acc) [], b < 256 := by
  intro st
  induction st with
  | nil => intro b hb; simp at hb
  | cons w ws ih =>
    intro b hb
    rw [List.foldr_cons] at hb
    rcases List.mem_cons.mp hb with rfl | hb2
    · exact Nat.mod_lt _ (by omega)
    · rcases List.mem_cons.mp hb2 with rfl | hb3
      · exact Nat.mod_lt _ (by omega)
      · rcases List.mem_cons.mp hb3 with rfl | hb4
        · exact Nat.mod_lt _ (by omega)
        · rcases List.mem_cons.mp hb4 with rfl | hb5
          · exact Nat.mod_lt _ (by omega)
          · exact ih b hb5

theorem sha256_bytes_lt (msg : List Nat) : ∀ b ∈ sha256 msg, b < 256 := by
  intro b hb
  have heq : sha256 msg =
      (shaBlocks ((shaPad msg).length / 64) (shaPad msg) shaH0).foldr (fun w acc =>
        w / 2 ^ 24 % 256 :: w / 2 ^ 16 % 256 :: w / 2 ^ 8 % 256 :: w % 256 :: acc) [] := rfl
  rw [heq] at hb
  exact shaBytes_foldr_lt _ b hb

theorem shaRound_length (st : List Nat) (kw : Nat × Nat) :
    (shaRound st kw).length = st.length := by
  unfold shaRound
  split
  · simp_all
  · rfl

theorem foldl_shaRound_length (l : List (Nat × Nat)) : ∀ st : List Nat,
    (l.foldl shaRound st).length = st.length := by
  induction l with
  | nil => intro st; rfl
  | cons p ps ih =>
    intro st
    rw [List.foldl_cons, ih, shaRound_length]

theorem shaCompress_length (st block : List Nat) :
    (shaCompress st block).length = st.length := by
  unfold shaCompress
  rw [List.length_map, List.length_zip, foldl_shaRound_length]
  omega

theorem shaBlocks_length : ∀ (k : Nat) (bytes st : List Nat),
    (shaBlocks k bytes st).length = st.length := by
  intro k
  induction k with
  | zero => intro bytes st; rfl
  | succ k' ih =>
    intro bytes st
    unfold shaBlocks
    rw [ih, shaCompress_length]

theorem foldr4_length : ∀ st : List Nat,
    (st.foldr (fun w acc =>
      w / 2 ^ 24 % 256 :: w / 2 ^ 16 % 256 :: w / 2 ^ 8 % 256 :: w % 256 :: acc) []).length =
    4 * st.length := by
  intro st
  induction st with
  | nil => rfl
  | cons w ws ih =>
    rw [List.foldr_cons]
    simp only [List.length_cons, ih]
    omega

theorem sha256_length (msg : List Nat) : (sha256 msg).length = 32 := by
  have heq : sha256 msg =
      (shaBlocks ((shaPad msg).length / 64) (shaPad msg) shaH0).foldr (fun w acc =>
        w / 2 ^ 24 % 256 :: w / 2 ^ 16 % 256 :: w / 2 ^ 8 % 256 :: w % 256 :: acc) [] := rfl
  rw [heq, foldr4_length, shaBlocks_length]
  rfl

/-- Base58Check round-trip for P2PKH addresses: decoding an encoded address
(nonzero version byte, 20-byte hash of byte values) recovers the hash. -/
theorem addressToPubKeyHash_encode (version : Nat) (hash : List Nat)
    (hv : version < 256) (hv0 : version ≠ 0) (hh : hash.length = 20)
    (hb : ∀ b ∈ hash, b < 256) :
    addressToPubKeyHash version (addressFromPubKeyHash version hash) = some hash := by
  have hchkmem : ∀ b ∈ (doubleSHA256 (version :: hash)).take 4, b < 256 := fun b hbm =>
    sha256_bytes_lt _ b (List.mem_of_mem_take hbm)
  have hfullb : ∀ b ∈ (version :: hash) ++ (doubleSHA256 (version :: hash)).take 4,
      b < 256 := by
    intro b hbm
    rcases List.mem_append.mp hbm with hbm | hbm
    · rcases List.mem_cons.mp hbm with rfl | hbm2
      · exact hv
      · exact hb b hbm2
    · exact hchkmem b hbm
  have hchklen : ((doubleSHA256 (version :: hash)).take 4).length = 4 := by
    rw [List.length_take]
    have : (doubleSHA256 (version :: hash)).length = 32 := sha256_length _
    omega
  have hfulllen : ((version :: hash) ++ (doubleSHA256 (version :: hash)).take 4).length = 25 := by
    rw [List.length_append, List.length_cons, hh, hchklen]
  have hN : bytesToNat ((version :: hash) ++ (doubleSHA256 (version :: hash)).take 4) <
      256 ^ 25 := by
    have := bytesToNat_lt _ hfullb
    rwa [hfulllen] at this
  have hN58 : bytesToNat ((version :: hash) ++ (doubleSHA256 (version :: hash)).take 4) <
      58 ^ 50 := by
    calc bytesToNat ((version :: hash) ++ (doubleSHA256 (version :: hash)).take 4)
        < 256 ^ 25 := hN
      _ < 58 ^ 50 := by
          have h1 : (256 : Nat) < 58 ^ 2 := by norm_num
          calc (256 : Nat) ^ 25 < (58 ^ 2) ^ 25 :=
                Nat.pow_lt_pow_left h1 (by omega)
            _ = 58 ^ 50 := by rw [← pow_mul]
  have henc : addressFromPubKeyHash version hash =
      ⟨((natToB58Rev 50
          (bytesToNat ((version :: hash) ++ (doubleSHA256 (version :: hash)).take 4))).reverse.map
        (fun d => base58Chars.getD d '?'))⟩ := by
    unfold addressFromPubKeyHash base58CheckEncode base58Encode
    rw [List.cons_append]
    have htw : (version :: (hash ++ (doubleSHA256 (version :: hash)).take 4)).takeWhile
        (· = 0) = [] := by
      rw [List.takeWhile_cons_of_neg]
      simp [hv0]
    rw [htw]
    have hlen2 : 2 * (version :: (hash ++ (doubleSHA256 (version :: hash)).take 4)).length =
        50 := by
      have := hfulllen
      rw [List.cons_append] at this
      omega
    rw [hlen2]
    simp [List.cons_append]
  have hdigits : ∀ d ∈ (natToB58Rev 50
      (bytesToNat ((version :: hash) ++ (doubleSHA256 (version :: hash)).take 4))).reverse,
      d < 58 := by
    intro d hd
    exact natToB58Rev_lt 50 _ d (List.mem_reverse.mp hd)
  have hdec : base58Decode (addressFromPubKeyHash version hash) =
      some (bytesToNat ((version :: hash) ++ (doubleSHA256 (version :: hash)).take 4)) := by
    rw [henc]
    unfold base58Decode
    have htl : (String.mk (((natToB58Rev 50
        (bytesToNat ((version :: hash) ++ (doubleSHA256 (version :: hash)).take 4))).reverse.map
          (fun d => base58Chars.getD d '?')))).toList =
        ((natToB58Rev 50
          (bytesToNat ((version :: hash) ++ (doubleSHA256 (version :: hash)).take 4))).reverse.map
          (fun d => base58Chars.getD d '?')) := rfl
    rw [htl, b58Digits_map_enc _ hdigits]
    simp only [Option.map_some']
    rw [natToB58Rev_foldl 50 _ hN58]
  have hbytes : natToBytesBE 25
      (bytesToNat ((version :: hash) ++ (doubleSHA256 (version :: hash)).take 4)) =
      (version :: hash) ++ (doubleSHA256 (version :: hash)).take 4 :=
    natToBytesBE_bytesToNat 25 _ hfulllen hfullb
  unfold addressToPubKeyHash
  rw [hdec]
  simp only [hN, if_true, hbytes]
  have hlen21 : (version :: hash).length = 21 := by simp [hh]
  have htake21 : ((version :: hash) ++ (doubleSHA256 (version :: hash)).take 4).take 21 =
      version :: hash := by
    rw [← hlen21, List.take_left]
  have hdrop21 : ((version :: hash) ++ (doubleSHA256 (version :: hash)).take 4).drop 21 =
      (doubleSHA256 (version :: hash)).take 4 := by
    rw [← hlen21, List.drop_left]
  have hcond : (((version :: hash) ++ (doubleSHA256 (version :: hash)).take 4).getD 0 0 =
      version ∧
      (doubleSHA256 (((version :: hash) ++
        (doubleSHA256 (version :: hash)).take 4).take 21)).take 4 =
      ((version :: hash) ++ (doubleSHA256 (version :: hash)).take 4).drop 21) := by
    constructor
    · rw [List.cons_append, List.getD_cons_zero]
    · rw [htake21, hdrop21]
  rw [if_pos hcond]
  rw [List.cons_append, List.drop_one, List.tail_cons]
  rw [← hh, List.take_left]

theorem extractPubKeyHash_payTo (hash : List Nat) (hh : hash.length = 20) :
    extractPubKeyHash (payToPubKeyHashScript hash) = some hash := by
  unfold payToPubKeyHashScript extractPubKeyHash
  have hlen : ([OP_DUP, OP_HASH160, OP_DATA_20] ++ (hash ++ [OP_EQUALVERIFY, OP_CHECKSIG])).length
      = 25 := by simp [hh]
  have hg0 : ([OP_DUP, OP_HASH160, OP_DATA_20] ++
      (hash ++ [OP_EQUALVERIFY, OP_CHECKSIG])).getD 0 0 = OP_DUP := rfl
  have hg1 : ([OP_DUP, OP_HASH160, OP_DATA_20] ++
      (hash ++ [OP_EQUALVERIFY, OP_CHECKSIG])).getD 1 0 = OP_HASH160 := rfl
  have hg2 : ([OP_DUP, OP_HASH160, OP_DATA_20] ++
      (hash ++ [OP_EQUALVERIFY, OP_CHECKSIG])).getD 2 0 = OP_DATA_20 := rfl
  have hg23 : ([OP_DUP, OP_HASH160, OP_DATA_20] ++
      (hash ++ [OP_EQUALVERIFY, OP_CHECKSIG])).getD 23 0 = OP_EQUALVERIFY := by
    show (hash ++ [OP_EQUALVERIFY, OP_CHECKSIG]).getD 20 0 = OP_EQUALVERIFY
    rw [List.getD_append_right _ _ _ _ (by omega)]
    simp [hh]
  have hg24 : ([OP_DUP, OP_HASH160, OP_DATA_20] ++
      (hash ++ [OP_EQUALVERIFY, OP_CHECKSIG])).getD 24 0 = OP_CHECKSIG := by
    show (hash ++ [OP_EQUALVERIFY, OP_CHECKSIG]).getD 21 0 = OP_CHECKSIG
    rw [List.getD_append_right _ _ _ _ (by omega)]
    simp [hh]
  rw [if_pos ⟨hlen, hg0, hg1, hg2, hg23, hg24⟩]
  show some ((hash ++ [OP_EQUALVERIFY, OP_CHECKSIG]).take 20) = some hash
  rw [← hh, List.take_left]

theorem payload_inputs_roundtrip : ∀ ins : List Operation,
    (∀ o ∈ ins, o.typ = OpType.input ∧ o.coin.isSome) →
    ∃ lins : List TxIn,
      ins.mapM (fun o => o.coin.map (fun c =>
        ({ prevHash := c.1, prevIndex := c.2, signatureScript := [],
           sequence := 4294967295 } : TxIn))) = some lins ∧
      lins.length = ins.length ∧
      (lins.zip ((ins.map (·.amount)).zip (ins.map (·.account)))).map
        (fun p => Operation.mk OpType.input p.snd.snd p.snd.fst
          (some (p.fst.prevHash, p.fst.prevIndex))) = ins := by
  intro ins
  induction ins with
  | nil => exact fun _ => ⟨[], rfl, rfl, rfl⟩
  | cons o os ih =>
    intro h
    obtain ⟨lins, hm, hlen, hz⟩ := ih (fun x hx => h x (by simp [hx]))
    obtain ⟨hty, hcs⟩ := h o (by simp)
    obtain ⟨c, hc⟩ := Option.isSome_iff_exists.mp hcs
    have hhead : Operation.mk OpType.input o.account o.amount (some (c.fst, c.snd)) = o := by
      obtain ⟨t, acc, am, co⟩ := o
      rw [show t = OpType.input from hty, show co = some c from hc]
    refine ⟨TxIn.mk c.1 c.2 [] 4294967295 :: lins, ?_, by simp [hlen], ?_⟩
    · rw [List.mapM_cons, hc, hm]
      rfl
    · simp only [List.map_cons, List.zip_cons_cons]
      rw [hz]
      show Operation.mk OpType.input o.account o.amount (some (c.fst, c.snd)) :: os = o :: os
      rw [hhead]

theorem payload_outputs_roundtrip : ∀ outs : List Operation,
    (∀ o ∈ outs, o.typ = OpType.output ∧ o.coin = none ∧
      ∃ hsh, hsh.length = 20 ∧ (∀ b ∈ hsh, b < 256) ∧
        o.account = addressFromPubKeyHash TestNet3Params.pubKeyHashAddrID hsh) →
    ∃ louts : List TxOut,
      outs.mapM (fun o =>
        (addressToPubKeyHash TestNet3Params.pubKeyHashAddrID o.account).map (fun hash =>
          ({ value := o.amount, pkScript := payToPubKeyHashScript hash } : TxOut))) =
        some louts ∧
      louts.mapM (fun to_ => (extractPubKeyHash to_.pkScript).map (fun hash =>
        ({ typ := OpType.output,
           account := addressFromPubKeyHash TestNet3Params.pubKeyHashAddrID hash,
           amount := to_.value, coin := none } : Operation))) = some outs := by
  intro outs
  induction outs with
  | nil => exact fun _ => ⟨[], rfl, rfl⟩
  | cons o os ih =>
    intro h
    obtain ⟨louts, hm, hback⟩ := ih (fun x hx => h x (by simp [hx]))
    obtain ⟨hty, hcn, hsh, hshlen, hshb, hacct⟩ := h o (by simp)
    have hdec : addressToPubKeyHash TestNet3Params.pubKeyHashAddrID o.account = some hsh := by
      rw [hacct]
      exact addressToPubKeyHash_encode _ hsh (by decide) (by decide) hshlen hshb
    have hhead : Operation.mk OpType.output
        (addressFromPubKeyHash TestNet3Params.pubKeyHashAddrID hsh) o.amount none = o := by
      obtain ⟨t, acc, am, co⟩ := o
      rw [show t = OpType.output from hty, show co = (none : Option (List Nat × Nat)) from hcn,
        show acc = addressFromPubKeyHash TestNet3Params.pubKeyHashAddrID hsh from hacct]
    refine ⟨TxOut.mk o.amount (payToPubKeyHashScript hsh) :: louts, ?_, ?_⟩
    · rw [List.mapM_cons, hdec, hm]
      rfl
    · rw [List.mapM_cons]
      have hex : extractPubKeyHash ((TxOut.mk o.amount (payToPubKeyHashScript hsh)).pkScript) =
          some hsh := extractPubKeyHash_payTo hsh hshlen
      rw [hex, hback]
      simp only [Option.map_some', Option.bind_some]
      show some (Operation.mk OpType.output
        (addressFromPubKeyHash TestNet3Params.pubKeyHashAddrID hsh) o.amount none :: os) =
        some (o :: os)
      rw [hhead]

/-- C5: for a valid ordered operations list (inputs carrying coins followed
by outputs paying testnet P2PKH addresses), parsing the unsigned transaction
produced by Payloads yields exactly the same operations (operation
identifiers are not modelled), and the unsigned variant of Parse reports an
empty signer list. -/
theorem claim_C5 (ops : List Operation) (spks : List (List Nat)) (h : validOps ops) :
    ∃ blob, payloads ops spks = some blob ∧
      parseUnsigned blob = some (ops, ([] : List String)) := by
  obtain ⟨ins, outs, rfl, hins, houts⟩ := h
  have hfin : (ins ++ outs).filter isInputOp = ins := by
    rw [List.filter_append]
    have h1 : ins.filter isInputOp = ins := List.filter_eq_self.mpr (fun o ho => by
      simp [isInputOp, (hins o ho).1])
    have h2 : outs.filter isInputOp = [] := List.filter_eq_nil_iff.mpr (fun o ho => by
      simp [isInputOp, (houts o ho).1])
    rw [h1, h2, List.append_nil]
  have hfout : (ins ++ outs).filter isOutputOp = outs := by
    rw [List.filter_append]
    have h1 : ins.filter isOutputOp = [] := List.filter_eq_nil_iff.mpr (fun o ho => by
      simp [isOutputOp, (hins o ho).1])
    have h2 : outs.filter isOutputOp = outs := List.filter_eq_self.mpr (fun o ho => by
      simp [isOutputOp, (houts o ho).1])
    rw [h1, h2, List.nil_append]
  obtain ⟨lins, hmIn, hlinlen, hzip⟩ := payload_inputs_roundtrip ins hins
  obtain ⟨louts, hmOut, hback⟩ := payload_outputs_roundtrip outs houts
  have htx : payloadsTx (ins ++ outs) = some (MsgTx.mk 2 lins louts 0) := by
    unfold payloadsTx
    rw [hfin, hfout, hmIn, hmOut]
  refine ⟨UnsignedBlob.mk (MsgTx.mk 2 lins louts 0) spks (ins.map (·.amount))
    (ins.map (·.account)), ?_, ?_⟩
  · unfold payloads
    rw [htx, hfin]
    rfl
  · unfold parseUnsigned
    have hcond : lins.length = (ins.map (·.amount)).length ∧
        lins.length = (ins.map (·.account)).length := by
      constructor
      · rw [List.length_map, hlinlen]
      · rw [List.length_map, hlinlen]
    rw [if_pos hcond, hback]
    show some ((lins.zip ((ins.map (·.amount)).zip (ins.map (·.account)))).map
      (fun p => Operation.mk OpType.input p.snd.snd p.snd.fst
        (some (p.fst.prevHash, p.fst.prevIndex))) ++ outs, ([] : List String)) =
      some (ins ++ outs, ([] : List String))
    rw [hzip]

/-- C5 witness: the repository test's operations (one −40000 input spending
`5d7f…:0`, one +38000 output to the testnet address of hash `b19e…089d`)
round-trip through Payloads and the unsigned Parse with no signers. -/
theorem claim_C5_witness :
    validOps testOps ∧
    ∃ blob, payloads testOps [testPkScript] = some blob ∧
      parseUnsigned blob = some (testOps, ([] : List String)) := by
  have hv : validOps testOps :=
    ⟨[Operation.mk OpType.input "kyw8MaocLYCniZ3NnJqNST3qtZNygLSiCC" (-40000)
        (some (testCoinTxid, 0))],
     [Operation.mk OpType.output
        (addressFromPubKeyHash TestNet3Params.pubKeyHashAddrID testPubKeyHash) 38000 none],
     rfl,
     fun o ho => by
       rw [List.mem_singleton] at ho
       subst ho
       exact ⟨rfl, rfl⟩,
     fun o ho => by
       rw [List.mem_singleton] at ho
       subst ho
       exact ⟨rfl, rfl, testPubKeyHash, by decide, by decide, rfl⟩⟩
  exact ⟨hv, claim_C5 testOps [testPkScript] hv⟩
